import Mathlib

/-!
# regex.c: a shallow embedding of the parser and the matcher

The C program builds a tree of `regex` nodes from a pattern (`build_regex`) and
matches the tree against a text (`match_char`, `match_concatenation`,
`match_kleene`, `match_alternation`, reached through `get_matcher` and
`get_match`).

Conventions of the embedding

* A `regex*` is a value of `Regex`; the NULL pointer is `Regex.null`.
* A `char*` buffer is a function `Int → Char` from index to character, so that the
  code can be followed wherever it reads, also behind an end marker.
* C `int` values are `Int`. Budgets and offsets stay far inside the 32 bit range in
  every run considered (the entry point passes 65535), no wrap-around is modelled.
* The two `do ... while` loops of the matcher may run forever. Their models take a
  number `fuel` of permitted iterations and answer `none` when it is used up;
  `build_regex` takes a bound on its recursion depth in the same way.
-/

namespace RegexC

/-! ## Data model -/

/-- The `regex*` of the source: `null` is the NULL pointer, the other constructors
are the four node kinds made by the `*_factory` functions. -/
inductive Regex where
  | null : Regex
  | chr (actual_char : Char) : Regex
  | cnc (first second : Regex) : Regex
  | kls (inner : Regex) : Regex
  | alt (first second : Regex) : Regex
  deriving DecidableEq, Repr

/-- The character `'\0'`. -/
def NUL : Char := Char.ofNat 0

/-- The value `-1` that the matchers return for "no match". -/
def NO_MATCH : Int := -1

/-- A `char*` buffer. -/
abbrev Buffer := Int → Char

/-- The type `matcher_def` with the `needle` argument already supplied:
`start`, `haystack`, `maxlength` to the length of the match or `-1`;
`none` when the run does not finish within the fuel. -/
abbrev matcher_def := Int → Buffer → Int → Option Int

/-- The buffer holding the characters of `s` followed by NUL characters. -/
def cstr (s : String) : Buffer :=
  fun i => if i < 0 then NUL else s.toList.getD i.toNat NUL

/-! ## The matcher -/

/-- `match_null`: the matcher of the NULL pointer. -/
def match_null (_start : Int) (_haystack : Buffer) (maxlength : Int) : Int :=
  if maxlength < 0 then -1 else 0

/-- `has_match`: `result >= 0`. -/
def has_match (result : Int) : Bool := decide (result ≥ 0)

/-- `is_end`: `c == '\0' || c == '\n'`. -/
def is_end (c : Char) : Bool := decide (c = NUL) || decide (c = '\n')

/-- `match_char` for a node holding `actual_char`. -/
def match_char (actual_char : Char) (start : Int) (haystack : Buffer)
    (maxlength : Int) : Int :=
  if maxlength < 1 then -1
  else
    let matches_ : Bool := !is_end (haystack start) &&
      (decide (actual_char = NUL) || decide (actual_char = haystack start))
    if matches_ then 1 else -1

/-- One pass through the body of the `do ... while` of `match_concatenation`, from
the values of `sl` and `tryl` before the pass to their values after it, together
with whether the loop goes round again (`false` on `break` and when the loop
condition fails). -/
def concatenation_body (first_matcher second_matcher : matcher_def)
    (start : Int) (haystack : Buffer) (maxlength : Int) (sl tryl : Int) :
    Option (Int × Int × Bool) :=
  match first_matcher start haystack (tryl - 1) with
  | none => none
  | some tryl1 =>
    if !has_match tryl1 then some (sl, tryl1, false)
    else
      match second_matcher (start + tryl1) haystack (maxlength - tryl1) with
      | none => none
      | some sl1 => some (sl1, tryl1, has_match tryl1 && !has_match sl1)

/-- The `do ... while` of `match_concatenation`, at most `fuel` passes; the result is
the pair `(sl, tryl)` on leaving the loop. -/
def concatenation_loop (first_matcher second_matcher : matcher_def)
    (start : Int) (haystack : Buffer) (maxlength : Int) :
    Nat → Int → Int → Option (Int × Int)
  | 0, _, _ => none
  | fuel + 1, sl, tryl =>
    match concatenation_body first_matcher second_matcher start haystack maxlength sl tryl with
    | none => none
    | some (sl1, tryl1, again) =>
      if again then
        concatenation_loop first_matcher second_matcher start haystack maxlength fuel sl1 tryl1
      else some (sl1, tryl1)

/-- `match_concatenation`, given the matchers of the two operands. -/
def match_concatenation (first_matcher second_matcher : matcher_def) (fuel : Nat)
    (start : Int) (haystack : Buffer) (maxlength : Int) : Option Int :=
  match concatenation_loop first_matcher second_matcher start haystack maxlength
      fuel (-1) (maxlength + 1) with
  | none => none
  | some (sl, tryl) => if !has_match sl then some (-1) else some (tryl + sl)

/-- One pass through the body of the `do ... while` of `match_kleene`: the value of
`l` and the new value of `tot`. -/
def kleene_body (inner_matcher : matcher_def) (start : Int) (haystack : Buffer)
    (maxlength : Int) (tot : Int) : Option (Int × Int) :=
  match inner_matcher (start + tot) haystack (maxlength - tot) with
  | none => none
  | some l => some (l, if l > 0 then tot + l else tot)

/-- The `do ... while` of `match_kleene`, at most `fuel` passes; the result is `tot`
on leaving the loop. -/
def kleene_loop (inner_matcher : matcher_def) (start : Int) (haystack : Buffer)
    (maxlength : Int) : Nat → Int → Option Int
  | 0, _ => none
  | fuel + 1, tot =>
    match kleene_body inner_matcher start haystack maxlength tot with
    | none => none
    | some (l, tot1) =>
      if has_match l then kleene_loop inner_matcher start haystack maxlength fuel tot1
      else some tot1

/-- `match_kleene`, given the matcher of the inner expression. -/
def match_kleene (inner_matcher : matcher_def) (fuel : Nat)
    (start : Int) (haystack : Buffer) (maxlength : Int) : Option Int :=
  if maxlength < 0 then some (-1)
  else kleene_loop inner_matcher start haystack maxlength fuel 0

/-- `match_alternation`, given the matchers of the two operands. -/
def match_alternation (first_matcher second_matcher : matcher_def)
    (start : Int) (haystack : Buffer) (maxlength : Int) : Option Int :=
  match first_matcher start haystack maxlength with
  | none => none
  | some flen =>
    match second_matcher start haystack maxlength with
    | none => none
    | some slen => if flen > slen then some flen else some slen

/-- `get_matcher`: `match_null` for the NULL pointer, otherwise the function stored in
the node by its factory, here already applied to the node. `fuel` bounds the passes
of every loop that is run. -/
def get_matcher (fuel : Nat) : Regex → matcher_def
  | .null => fun start haystack maxlength => some (match_null start haystack maxlength)
  | .chr c => fun start haystack maxlength => some (match_char c start haystack maxlength)
  | .cnc first second =>
    match_concatenation (get_matcher fuel first) (get_matcher fuel second) fuel
  | .kls inner => match_kleene (get_matcher fuel inner) fuel
  | .alt first second => match_alternation (get_matcher fuel first) (get_matcher fuel second)

/-- `get_match`: the matcher of `needle` run with the budget 65535. -/
def get_match (fuel : Nat) (start : Int) (haystack : Buffer) (needle : Regex) :
    Option Int :=
  get_matcher fuel needle start haystack 65535

/-! ## The parser -/

/-- `build_regex`, returning the tree together with the final value of `*i`.
`fuel` bounds the depth of the recursion. -/
def build_regex : Nat → Regex → Buffer → Int → Bool → Option (Regex × Int)
  | 0, _, _, _, _ => none
  | fuel + 1, last, pattern, i, escape =>
    if is_end (pattern i) then some (last, i)
    else
      let cur0 := pattern i
      let cur := if !escape && decide (cur0 = '.') then NUL else cur0
      if !escape && decide (cur = '\\') then
        build_regex fuel last pattern (i + 1) true
      else if !escape && decide (cur = '|') then
        match build_regex fuel .null pattern (i + 1) false with
        | none => none
        | some (right, i1) => build_regex fuel (.alt last right) pattern i1 false
      else if cur = ')' then some (last, i)
      else
        let atom : Option (Regex × Int) :=
          if cur = '(' then build_regex fuel .null pattern (i + 1) false
          else some (.chr cur, i)
        match atom with
        | none => none
        | some (out, i2) =>
          if pattern (i2 + 1) = '*' then
            let k := Regex.kls out
            let c := match last with
              | .null => k
              | _ => Regex.cnc last k
            build_regex fuel c pattern (i2 + 2) false
          else
            match last with
            | .null => build_regex fuel out pattern (i2 + 1) false
            | _ => build_regex fuel (.cnc last out) pattern (i2 + 1) false

/-- The call `build_regex(NULL, search_pattern, &i, 0)` with `i = 0` made by `main`:
the tree of a pattern. -/
def compile (fuel : Nat) (pattern : Buffer) : Option Regex :=
  (build_regex fuel .null pattern 0 false).map Prod.fst


/-! ## Specification side: languages, slices, nullable expressions -/

/-- The characters `haystack[start .. start+n)`. -/
def slice (haystack : Buffer) (start : Int) (n : Nat) : List Char :=
  (List.range n).map (fun (k : Nat) => haystack (start + (k : Int)))

/-- None of the characters `haystack[start .. start+n)` is an end marker. -/
def NonEnd (haystack : Buffer) (start n : Int) : Prop :=
  ∀ k : Int, 0 ≤ k → k < n → is_end (haystack (start + k)) = false

/-- The regular language denoted by a node, in the words of the specification:
a literal is that one character, the wildcard literal (`'\0'`) is any one character
that is no end marker, a concatenation is a string of the left operand followed by a
string of the right one, a star is zero or more repetitions of the inner expression,
an alternation is a string of either operand, the absent node is the empty string. -/
def Lang : Regex → Language Char
  | .null => 1
  | .chr c => if c = NUL then {w | ∃ x, is_end x = false ∧ w = [x]} else {[c]}
  | .cnc a b => Lang a * Lang b
  | .kls a => KStar.kstar (Lang a)
  | .alt a b => Lang a + Lang b

/-- `haystack[start .. start+n)` is free of end markers and is a string of the
language of `r`. -/
def Good (r : Regex) (haystack : Buffer) (start n : Int) : Prop :=
  NonEnd haystack start n ∧ slice haystack start n.toNat ∈ Lang r

/-- The expression can match the empty string. -/
def nullable : Regex → Bool
  | .null => true
  | .chr _ => false
  | .cnc a b => nullable a && nullable b
  | .kls _ => true
  | .alt a b => nullable a || nullable b

/-- No star in the tree is over an expression that can match the empty string. -/
def NoNullStar : Regex → Bool
  | .null => true
  | .chr _ => true
  | .cnc a b => NoNullStar a && NoNullStar b
  | .kls a => !nullable a && NoNullStar a
  | .alt a b => NoNullStar a && NoNullStar b

/-- The common length of all strings of the expression, when the shape of the tree
fixes one: literals have width 1, the absent node has width 0, widths add up along a
concatenation, an alternation has a width when both operands have the same one, a
star has none. -/
def width : Regex → Option Nat
  | .null => some 0
  | .chr _ => some 1
  | .cnc a b =>
    match width a, width b with
    | some m, some n => some (m + n)
    | _, _ => none
  | .kls _ => none
  | .alt a b =>
    match width a, width b with
    | some m, some n => if m = n then some m else none
    | _, _ => none

/-- Every star is over an expression with a width, and in every concatenation at
least one operand has a width. -/
def Stepwise : Regex → Bool
  | .null => true
  | .chr _ => true
  | .cnc a b => ((width a).isSome || (width b).isSome) && Stepwise a && Stepwise b
  | .kls a => (width a).isSome && Stepwise a
  | .alt a b => Stepwise a && Stepwise b

/-- What a matcher `m` for the node `r` may answer: `-1`, or a length within the
budget whose characters are free of end markers and form a string of `r`. -/
def Spec (r : Regex) (m : matcher_def) : Prop :=
  ∀ (s : Int) (h : Buffer) (b v : Int), m s h b = some v →
    v = -1 ∨ (0 ≤ v ∧ v ≤ b ∧ Good r h s v)

/-- The matcher `m` answers for every budget up to `B`. -/
def Answers (m : matcher_def) (B : Int) : Prop :=
  ∀ (s : Int) (h : Buffer) (b : Int), b ≤ B → ∃ v, m s h b = some v

/-- The matcher `m` for `r` answers at least `n` whenever `n` characters within the
budget are a string of `r` free of end markers. -/
def Maximal (r : Regex) (m : matcher_def) : Prop :=
  ∀ (s : Int) (h : Buffer) (b v n : Int), m s h b = some v →
    0 ≤ n → n ≤ b → Good r h s n → n ≤ v

/-- The matcher `m'` answers whatever `m` answers. -/
def Extends (m m' : matcher_def) : Prop :=
  ∀ (s : Int) (h : Buffer) (b v : Int), m s h b = some v → m' s h b = some v

/-- A result obtained with a budget `b'` is obtained again with every smaller budget
`b` that it fits into, and a failure with `b'` is a failure with every smaller
budget. -/
def Stable (m : matcher_def) : Prop :=
  ∀ (s : Int) (h : Buffer) (b b' v : Int), b ≤ b' → m s h b' = some v →
    (v < 0 ∨ v ≤ b) → m s h b = some v

/-- The reference search for a concatenation, in the words of the specification: with
`k` budgets left to try, the left operand is run with the budgets `b'`, `b' - 1`, ...
in that order; at the first of them for which it returns some `t ≥ 0` and the right
operand, run at `start + t` with budget `maxlength - t`, returns some `u ≥ 0`, the
result is `t + u`; it is `NO_MATCH` when no budget qualifies. -/
def reference_search (left right : matcher_def) (start : Int) (haystack : Buffer)
    (maxlength : Int) : Nat → Int → Option Int
  | 0, _ => some NO_MATCH
  | k + 1, b' =>
    match left start haystack b' with
    | none => none
    | some t =>
      if 0 ≤ t then
        match right (start + t) haystack (maxlength - t) with
        | none => none
        | some u =>
          if 0 ≤ u then some (t + u)
          else reference_search left right start haystack maxlength k (b' - 1)
      else reference_search left right start haystack maxlength k (b' - 1)

/-- The reference search over the left budgets `maxlength`, `maxlength - 1`, ..., `0`. -/
def reference_concatenation (left right : matcher_def) (start : Int)
    (haystack : Buffer) (maxlength : Int) : Option Int :=
  reference_search left right start haystack maxlength (maxlength + 1).toNat maxlength

/-- The left budget `y` does not qualify. -/
def Fails (ma mc : matcher_def) (s : Int) (h : Buffer) (ml y : Int) : Prop :=
  ∃ t, ma s h y = some t ∧ (t < 0 ∨ ∃ u, mc (s + t) h (ml - t) = some u ∧ u < 0)

/-- The buffer holding the characters of the list followed by NUL characters. -/
def clist (l : List Char) : Buffer :=
  fun i => if i < 0 then NUL else l.getD i.toNat NUL

/-- What `build_regex` makes of the expression so far and a new operand: the operand
itself when `last == NULL`, otherwise their concatenation. -/
def concat_onto (last out : Regex) : Regex :=
  match last with
  | .null => out
  | _ => .cnc last out

/-- The literal node for a pattern character that is no operator: the wildcard marker
for `.`, the character itself otherwise. -/
def atom_of (c : Char) : Regex :=
  .chr (if c = '.' then NUL else c)

/-- The tree of a pattern without parentheses and backslashes, read off a list of
characters, starting from the expression `last` accumulated so far: `|` makes an
alternation of `last` with the tree of the rest; a character followed by `*` adds the
star of its literal; any other character adds its literal. -/
def parse_flat : Regex → List Char → Regex
  | last, [] => last
  | last, [c] => if c = '|' then .alt last .null else concat_onto last (atom_of c)
  | last, c :: d :: rest =>
    if c = '|' then .alt last (parse_flat .null (d :: rest))
    else if d = '*' then parse_flat (concat_onto last (.kls (atom_of c))) rest
    else parse_flat (concat_onto last (atom_of c)) (d :: rest)

/-- A character that may stand in a pattern without parentheses and backslashes. -/
def flat_char (c : Char) : Prop :=
  is_end c = false ∧ c ≠ '(' ∧ c ≠ ')' ∧ c ≠ '\\'

instance flat_char_decidable (c : Char) : Decidable (flat_char c) := by
  unfold flat_char
  infer_instance

/-- A plain character: no end marker and none of `.`, `(`, `)`, `|`, `*` and the
backslash. -/
def plain_char (c : Char) : Prop :=
  is_end c = false ∧ c ≠ '.' ∧ c ≠ '(' ∧ c ≠ ')' ∧ c ≠ '|' ∧ c ≠ '*' ∧ c ≠ '\\'

instance plain_char_decidable (c : Char) : Decidable (plain_char c) := by
  unfold plain_char
  infer_instance

/-- The left-nested concatenation of a list of trees, in their order: the NULL node for
no tree, the tree itself for one, `cnc (cnc (cnc t1 t2) t3) ...` for more. -/
def left_nested : List Regex → Regex
  | [] => .null
  | t :: ts => ts.foldl Regex.cnc t

/-- An atom of a pattern of terms: a plain character, or a parenthesised string of
plain characters. -/
inductive Atom where
  | lit (c : Char) : Atom
  | group (cs : List Char) : Atom
  deriving DecidableEq, Repr

/-- The characters of an atom in the pattern. -/
def atom_text : Atom → List Char
  | .lit c => [c]
  | .group cs => '(' :: (cs ++ [')'])

/-- The characters of a term: its atom, followed by `*` when the term is starred. -/
def term_text (t : Atom × Bool) : List Char :=
  atom_text t.1 ++ (if t.2 then ['*'] else [])

/-- The characters of a sequence of terms. -/
def pattern_text (ts : List (Atom × Bool)) : List Char :=
  (ts.map term_text).flatten

/-- The tree of an atom: the literal of a character, the left-nested concatenation of
the literals of a group. -/
def atom_tree : Atom → Regex
  | .lit c => .chr c
  | .group cs => left_nested (cs.map Regex.chr)

/-- The tree that a term contributes: the star of its atom alone when it is starred,
the atom otherwise. -/
def term_tree (t : Atom × Bool) : Regex :=
  if t.2 then .kls (atom_tree t.1) else atom_tree t.1

/-- The atom is a plain character or a group of one or more plain characters. -/
def atom_ok : Atom → Prop
  | .lit c => plain_char c
  | .group cs => cs ≠ [] ∧ ∀ c ∈ cs, plain_char c

instance atom_ok_decidable (a : Atom) : Decidable (atom_ok a) := by
  cases a <;> unfold atom_ok <;> infer_instance

/-! ## Slices -/

theorem slice_add (h : Buffer) (s : Int) (m n : Nat) :
    slice h s (m + n) = slice h s m ++ slice h (s + m) n := by
  rw [slice, List.range_add, List.map_append, List.map_map]
  congr 1
  apply List.map_congr_left
  intro k _
  simp [add_assoc]

theorem slice_length (h : Buffer) (s : Int) (n : Nat) : (slice h s n).length = n := by
  simp [slice]

theorem slice_zero (h : Buffer) (s : Int) : slice h s 0 = [] := rfl

theorem slice_one (h : Buffer) (s : Int) : slice h s 1 = [h s] := by
  simp [slice, List.range_succ]

theorem slice_toNat_add (h : Buffer) (s m n : Int) (hm : 0 ≤ m) (hn : 0 ≤ n) :
    slice h s (m + n).toNat = slice h s m.toNat ++ slice h (s + m) n.toNat := by
  rw [Int.toNat_add hm hn, slice_add, Int.toNat_of_nonneg hm]

theorem NonEnd_add {h : Buffer} {s m n : Int}
    (h1 : NonEnd h s m) (h2 : NonEnd h (s + m) n) : NonEnd h s (m + n) := by
  intro k hk0 hk
  by_cases hkm : k < m
  · exact h1 k hk0 hkm
  · have := h2 (k - m) (by omega) (by omega)
    rwa [show s + m + (k - m) = s + k by ring] at this

theorem NonEnd_zero (h : Buffer) (s : Int) : NonEnd h s 0 := by
  intro k hk0 hk
  omega

/-! ## The two loops: what one pass does, and invariant rules -/

theorem concatenation_body_eq {first second : matcher_def} {s : Int} {h : Buffer}
    {ml sl tryl sl1 tryl1 : Int} {again : Bool}
    (hb : concatenation_body first second s h ml sl tryl = some (sl1, tryl1, again)) :
    first s h (tryl - 1) = some tryl1 ∧
      ((tryl1 < 0 ∧ sl1 = sl ∧ again = false) ∨
       (0 ≤ tryl1 ∧ second (s + tryl1) h (ml - tryl1) = some sl1 ∧
          again = decide (sl1 < 0))) := by
  unfold concatenation_body at hb
  cases h1 : first s h (tryl - 1) with
  | none => simp [h1] at hb
  | some t =>
    simp only [h1] at hb
    by_cases ht : 0 ≤ t
    · have hm : has_match t = true := by simp [has_match, ht]
      simp only [hm, Bool.not_true, Bool.false_eq_true, if_false, Bool.true_and] at hb
      cases h2 : second (s + t) h (ml - t) with
      | none => simp [h2] at hb
      | some u =>
        simp only [h2, Option.some.injEq, Prod.mk.injEq] at hb
        obtain ⟨rfl, rfl, rfl⟩ := hb
        refine ⟨rfl, Or.inr ⟨ht, h2, ?_⟩⟩
        by_cases hu : 0 ≤ u
        · simp [has_match, hu]
        · simp [has_match, hu]; omega
    · have hm : has_match t = false := by simp [has_match, ht]
      simp only [hm, Bool.not_false, if_true, Option.some.injEq, Prod.mk.injEq] at hb
      obtain ⟨rfl, rfl, rfl⟩ := hb
      exact ⟨rfl, Or.inl ⟨by omega, rfl, rfl⟩⟩

theorem concatenation_loop_rule {first second : matcher_def} {s : Int} {h : Buffer}
    {ml : Int} (P Q : Int → Int → Prop)
    (step : ∀ sl tryl sl1 tryl1 again, P sl tryl →
      concatenation_body first second s h ml sl tryl = some (sl1, tryl1, again) →
      (again = true → P sl1 tryl1) ∧ (again = false → Q sl1 tryl1)) :
    ∀ (fuel : Nat) (sl tryl sl2 tryl2 : Int), P sl tryl →
      concatenation_loop first second s h ml fuel sl tryl = some (sl2, tryl2) →
      Q sl2 tryl2 := by
  intro fuel
  induction fuel with
  | zero => intro sl tryl sl2 tryl2 _ hl; simp [concatenation_loop] at hl
  | succ n ih =>
    intro sl tryl sl2 tryl2 hP hl
    unfold concatenation_loop at hl
    cases hb : concatenation_body first second s h ml sl tryl with
    | none => simp [hb] at hl
    | some x =>
      obtain ⟨sl1, tryl1, again⟩ := x
      simp only [hb] at hl
      cases again with
      | true =>
        simp only [if_true] at hl
        exact ih sl1 tryl1 sl2 tryl2 ((step sl tryl sl1 tryl1 true hP hb).1 rfl) hl
      | false =>
        simp only [Bool.false_eq_true, if_false, Option.some.injEq, Prod.mk.injEq] at hl
        obtain ⟨rfl, rfl⟩ := hl
        exact (step sl tryl sl1 tryl1 false hP hb).2 rfl

theorem kleene_body_eq {inner : matcher_def} {s : Int} {h : Buffer}
    {ml tot l tot1 : Int}
    (hb : kleene_body inner s h ml tot = some (l, tot1)) :
    inner (s + tot) h (ml - tot) = some l ∧ tot1 = (if l > 0 then tot + l else tot) := by
  unfold kleene_body at hb
  cases h1 : inner (s + tot) h (ml - tot) with
  | none => simp [h1] at hb
  | some t =>
    simp only [h1, Option.some.injEq, Prod.mk.injEq] at hb
    obtain ⟨rfl, rfl⟩ := hb
    exact ⟨rfl, rfl⟩

theorem kleene_loop_rule {inner : matcher_def} {s : Int} {h : Buffer}
    {ml : Int} (P Q : Int → Prop)
    (step : ∀ tot l tot1, P tot →
      kleene_body inner s h ml tot = some (l, tot1) →
      (0 ≤ l → P tot1) ∧ (l < 0 → Q tot1)) :
    ∀ (fuel : Nat) (tot tot2 : Int), P tot →
      kleene_loop inner s h ml fuel tot = some tot2 → Q tot2 := by
  intro fuel
  induction fuel with
  | zero => intro tot tot2 _ hl; simp [kleene_loop] at hl
  | succ n ih =>
    intro tot tot2 hP hl
    unfold kleene_loop at hl
    cases hb : kleene_body inner s h ml tot with
    | none => simp [hb] at hl
    | some x =>
      obtain ⟨l, tot1⟩ := x
      simp only [hb] at hl
      by_cases hl0 : 0 ≤ l
      · have hm : has_match l = true := by simp [has_match, hl0]
        simp only [hm, if_true] at hl
        exact ih tot1 tot2 ((step tot l tot1 hP hb).1 hl0) hl
      · have hm : has_match l = false := by simp [has_match, hl0]
        simp only [hm, Bool.false_eq_true, if_false, Option.some.injEq] at hl
        subst hl
        exact (step tot l tot1 hP hb).2 (by omega)

/-! ## Range and soundness of the result, for every tree -/

theorem Good_null (h : Buffer) (s : Int) : Good .null h s 0 := by
  refine ⟨NonEnd_zero h s, ?_⟩
  simp [Lang, slice_zero]

theorem Good_kls_zero (a : Regex) (h : Buffer) (s : Int) : Good (.kls a) h s 0 := by
  refine ⟨NonEnd_zero h s, ?_⟩
  simp only [Int.toNat_zero, slice_zero, Lang]
  exact Language.nil_mem_kstar _

theorem Good_chr {c : Char} {h : Buffer} {s : Int} (he : is_end (h s) = false)
    (hc : c = NUL ∨ c = h s) : Good (.chr c) h s 1 := by
  constructor
  · intro k hk0 hk1
    have : k = 0 := by omega
    subst this
    simpa using he
  · have : (1 : Int).toNat = 1 := rfl
    rw [this, slice_one]
    by_cases hN : c = NUL
    · simp only [Lang, hN, if_true]
      exact ⟨h s, he, rfl⟩
    · simp only [Lang, hN, if_false]
      rcases hc with hc | hc
      · exact absurd hc hN
      · rw [hc]; rfl

theorem Good_cnc {a b : Regex} {h : Buffer} {s t u : Int} (ht : 0 ≤ t) (hu : 0 ≤ u)
    (ha : Good a h s t) (hb : Good b h (s + t) u) : Good (.cnc a b) h s (t + u) := by
  refine ⟨NonEnd_add ha.1 hb.1, ?_⟩
  rw [slice_toNat_add h s t u ht hu]
  simp only [Lang]
  exact Language.mem_mul.2 ⟨_, ha.2, _, hb.2, rfl⟩

theorem Good_kls_snoc {a : Regex} {h : Buffer} {s t u : Int} (ht : 0 ≤ t) (hu : 0 ≤ u)
    (hk : Good (.kls a) h s t) (ha : Good a h (s + t) u) :
    Good (.kls a) h s (t + u) := by
  refine ⟨NonEnd_add hk.1 ha.1, ?_⟩
  rw [slice_toNat_add h s t u ht hu]
  have hk2 := hk.2
  simp only [Lang] at hk2 ⊢
  rw [← Language.one_add_kstar_mul_self_eq_kstar]
  exact (Language.mem_add _ _ _).2 (Or.inr (Language.mem_mul.2 ⟨_, hk2, _, ha.2, rfl⟩))

theorem match_null_eq (s : Int) (h : Buffer) (b : Int) :
    match_null s h b = if b < 0 then -1 else 0 := rfl

theorem match_char_eq (c : Char) (s : Int) (h : Buffer) (b : Int) :
    match_char c s h b =
      if 1 ≤ b ∧ is_end (h s) = false ∧ (c = NUL ∨ c = h s) then 1 else -1 := by
  unfold match_char
  by_cases hb : b < 1
  · have : ¬ (1 ≤ b) := by omega
    simp [hb, this]
  · have : 1 ≤ b := by omega
    simp only [hb, if_false, this, true_and]
    cases he : is_end (h s) <;> simp

theorem Spec_null (fuel : Nat) : Spec .null (get_matcher fuel .null) := by
  intro s h b v hv
  simp only [get_matcher, match_null_eq, Option.some.injEq] at hv
  by_cases hb : b < 0
  · simp only [hb, if_true] at hv
    exact Or.inl hv.symm
  · simp only [hb, if_false] at hv
    subst hv
    exact Or.inr ⟨le_refl _, by omega, Good_null h s⟩

theorem Spec_chr (fuel : Nat) (c : Char) : Spec (.chr c) (get_matcher fuel (.chr c)) := by
  intro s h b v hv
  simp only [get_matcher, match_char_eq, Option.some.injEq] at hv
  split at hv
  · rename_i hc
    subst hv
    exact Or.inr ⟨by omega, hc.1, Good_chr hc.2.1 hc.2.2⟩
  · exact Or.inl hv.symm

theorem Spec_alt {a b : Regex} {ma mb : matcher_def} (ha : Spec a ma) (hb : Spec b mb) :
    Spec (.alt a b) (match_alternation ma mb) := by
  intro s h bd v hv
  unfold match_alternation at hv
  cases h1 : ma s h bd with
  | none => simp [h1] at hv
  | some f =>
    cases h2 : mb s h bd with
    | none => simp [h1, h2] at hv
    | some g =>
      simp only [h1, h2] at hv
      have hf := ha s h bd f h1
      have hg := hb s h bd g h2
      split at hv
      · simp only [Option.some.injEq] at hv
        subst hv
        rcases hf with hf | ⟨hf0, hfb, hfg⟩
        · exact Or.inl hf
        · exact Or.inr ⟨hf0, hfb, hfg.1, (Language.mem_add _ _ _).2 (Or.inl hfg.2)⟩
      · simp only [Option.some.injEq] at hv
        subst hv
        rcases hg with hg | ⟨hg0, hgb, hgg⟩
        · exact Or.inl hg
        · exact Or.inr ⟨hg0, hgb, hgg.1, (Language.mem_add _ _ _).2 (Or.inr hgg.2)⟩

theorem Spec_cnc {a b : Regex} {ma mb : matcher_def} (ha : Spec a ma) (hb : Spec b mb)
    (fuel : Nat) : Spec (.cnc a b) (match_concatenation ma mb fuel) := by
  intro s h ml v hv
  unfold match_concatenation at hv
  cases hl : concatenation_loop ma mb s h ml fuel (-1) (ml + 1) with
  | none => simp [hl] at hv
  | some x =>
    obtain ⟨sl2, tryl2⟩ := x
    simp only [hl] at hv
    have hQ := concatenation_loop_rule
      (fun sl tryl => sl < 0 ∧ tryl ≤ ml + 1)
      (fun sl tryl => sl < 0 ∨ (0 ≤ tryl ∧ 0 ≤ sl ∧ tryl + sl ≤ ml ∧
        Good a h s tryl ∧ Good b h (s + tryl) sl))
      (by
        intro sl tryl sl1 tryl1 again hP hbody
        obtain ⟨hf, hcase⟩ := concatenation_body_eq hbody
        have hfa := ha s h (tryl - 1) tryl1 hf
        rcases hcase with ⟨ht, rfl, rfl⟩ | ⟨ht, hsec, rfl⟩
        · exact ⟨by simp, fun _ => Or.inl hP.1⟩
        · have hsb := hb (s + tryl1) h (ml - tryl1) sl1 hsec
          rcases hfa with hfa | ⟨_, hfb, hfg⟩
          · omega
          · constructor
            · intro hag
              have : sl1 < 0 := by simpa using hag
              exact ⟨this, by omega⟩
            · intro hag
              have hs0 : ¬ sl1 < 0 := by simpa using hag
              rcases hsb with hsb | ⟨hs1, hs2, hsg⟩
              · omega
              · exact Or.inr ⟨ht, hs1, by omega, hfg, hsg⟩)
      fuel (-1) (ml + 1) sl2 tryl2 ⟨by omega, le_refl _⟩ hl
    by_cases hs : 0 ≤ sl2
    · have hm : has_match sl2 = true := by simp [has_match, hs]
      simp only [hm, Bool.not_true, Bool.false_eq_true, if_false, Option.some.injEq] at hv
      subst hv
      rcases hQ with hQ | ⟨ht, _, hle, hga, hgb⟩
      · omega
      · exact Or.inr ⟨by omega, hle, Good_cnc ht hs hga hgb⟩
    · have hm : has_match sl2 = false := by simp [has_match, hs]
      simp only [hm, Bool.not_false, if_true, Option.some.injEq] at hv
      exact Or.inl hv.symm

theorem Spec_kls {a : Regex} {ma : matcher_def} (ha : Spec a ma)
    (fuel : Nat) : Spec (.kls a) (match_kleene ma fuel) := by
  intro s h ml v hv
  unfold match_kleene at hv
  by_cases hml : ml < 0
  · simp only [hml, if_true, Option.some.injEq] at hv
    exact Or.inl hv.symm
  · simp only [hml, if_false] at hv
    have hQ := kleene_loop_rule
      (fun tot => 0 ≤ tot ∧ tot ≤ ml ∧ Good (.kls a) h s tot)
      (fun tot => 0 ≤ tot ∧ tot ≤ ml ∧ Good (.kls a) h s tot)
      (by
        intro tot l tot1 hP hbody
        obtain ⟨hin, rfl⟩ := kleene_body_eq hbody
        have hia := ha (s + tot) h (ml - tot) l hin
        have key : 0 ≤ (if l > 0 then tot + l else tot) ∧
            (if l > 0 then tot + l else tot) ≤ ml ∧
            Good (.kls a) h s (if l > 0 then tot + l else tot) := by
          by_cases hl : l > 0
          · simp only [hl, if_true]
            rcases hia with hia | ⟨hl0, hlb, hlg⟩
            · omega
            · exact ⟨by omega, by omega, Good_kls_snoc hP.1 hl0 hP.2.2 hlg⟩
          · simp only [hl, if_false]
            exact hP
        exact ⟨fun _ => key, fun _ => key⟩)
      fuel 0 v ⟨le_refl _, by omega, Good_kls_zero a h s⟩ hv
    exact Or.inr hQ

theorem get_matcher_spec (fuel : Nat) (r : Regex) : Spec r (get_matcher fuel r) := by
  induction r with
  | null => exact Spec_null fuel
  | chr c => exact Spec_chr fuel c
  | cnc a b iha ihb => exact Spec_cnc iha ihb fuel
  | kls a iha => exact Spec_kls iha fuel
  | alt a b iha ihb => exact Spec_alt iha ihb

/-! ## Running one pass forward -/

theorem has_match_iff (v : Int) : has_match v = true ↔ 0 ≤ v := by
  simp [has_match]

theorem has_match_false_iff (v : Int) : has_match v = false ↔ v < 0 := by
  simp [has_match]

theorem concatenation_body_break {first second : matcher_def} {s : Int} {h : Buffer}
    {ml sl tryl t : Int} (h1 : first s h (tryl - 1) = some t) (ht : t < 0) :
    concatenation_body first second s h ml sl tryl = some (sl, t, false) := by
  have hm : has_match t = false := (has_match_false_iff t).2 ht
  simp [concatenation_body, h1, hm]

theorem concatenation_body_both {first second : matcher_def} {s : Int} {h : Buffer}
    {ml sl tryl t u : Int} (h1 : first s h (tryl - 1) = some t) (ht : 0 ≤ t)
    (h2 : second (s + t) h (ml - t) = some u) :
    concatenation_body first second s h ml sl tryl = some (u, t, decide (u < 0)) := by
  have hm : has_match t = true := (has_match_iff t).2 ht
  by_cases hu : 0 ≤ u
  · have hm2 : has_match u = true := (has_match_iff u).2 hu
    have : ¬ u < 0 := by omega
    simp [concatenation_body, h1, hm, h2, hm2, this]
  · have hm2 : has_match u = false := (has_match_false_iff u).2 (by omega)
    have : u < 0 := by omega
    simp [concatenation_body, h1, hm, h2, hm2, this]

theorem concatenation_loop_succ (first second : matcher_def) (s : Int) (h : Buffer)
    (ml : Int) (n : Nat) (sl tryl : Int) :
    concatenation_loop first second s h ml (n + 1) sl tryl =
      match concatenation_body first second s h ml sl tryl with
      | none => none
      | some (sl1, tryl1, again) =>
        if again then concatenation_loop first second s h ml n sl1 tryl1
        else some (sl1, tryl1) := rfl

theorem kleene_loop_succ (inner : matcher_def) (s : Int) (h : Buffer)
    (ml : Int) (n : Nat) (tot : Int) :
    kleene_loop inner s h ml (n + 1) tot =
      match kleene_body inner s h ml tot with
      | none => none
      | some (l, tot1) =>
        if has_match l then kleene_loop inner s h ml n tot1 else some tot1 := rfl

theorem kleene_loop_stop {inner : matcher_def} {s : Int} {h : Buffer}
    {ml tot l : Int} (n : Nat) (h1 : inner (s + tot) h (ml - tot) = some l) (hl : l < 0) :
    kleene_loop inner s h ml (n + 1) tot = some tot := by
  have hm : has_match l = false := (has_match_false_iff l).2 hl
  have : ¬ l > 0 := by omega
  simp [kleene_loop_succ, kleene_body, h1, hm, this]

theorem kleene_loop_more {inner : matcher_def} {s : Int} {h : Buffer}
    {ml tot l : Int} (n : Nat) (h1 : inner (s + tot) h (ml - tot) = some l) (hl : 0 < l) :
    kleene_loop inner s h ml (n + 1) tot = kleene_loop inner s h ml n (tot + l) := by
  have hm : has_match l = true := (has_match_iff l).2 (by omega)
  simp [kleene_loop_succ, kleene_body, h1, hm, hl]

/-! ## A negative budget -/

theorem get_matcher_neg (r : Regex) : ∀ (fuel : Nat) (s : Int) (h : Buffer) (b : Int),
    1 ≤ fuel → b < 0 → get_matcher fuel r s h b = some (-1) := by
  induction r with
  | null =>
    intro fuel s h b _ hb
    simp [get_matcher, match_null_eq, hb]
  | chr c =>
    intro fuel s h b _ hb
    have : ¬ 1 ≤ b := by omega
    simp [get_matcher, match_char_eq, this]
  | cnc a c iha _ =>
    intro fuel s h b hf hb
    obtain ⟨n, rfl⟩ : ∃ n, fuel = n + 1 := ⟨fuel - 1, by omega⟩
    have h1 : get_matcher (n + 1) a s h (b + 1 - 1) = some (-1) := by
      rw [show b + 1 - 1 = b by ring]
      exact iha (n + 1) s h b hf hb
    have hbody : concatenation_body (get_matcher (n + 1) a) (get_matcher (n + 1) c)
        s h b (-1) (b + 1) = some (-1, -1, false) :=
      concatenation_body_break h1 (by omega)
    simp [get_matcher, match_concatenation, concatenation_loop_succ, hbody, has_match]
  | kls a _ =>
    intro fuel s h b _ hb
    simp [get_matcher, match_kleene, hb]
  | alt a c iha ihc =>
    intro fuel s h b hf hb
    simp [get_matcher, match_alternation, iha fuel s h b hf hb, ihc fuel s h b hf hb]

/-! ## An expression that cannot match the empty string never answers 0 -/

theorem match_concatenation_parts {ma mb : matcher_def} {fuel : Nat} {s : Int}
    {h : Buffer} {ml v : Int} (hv : match_concatenation ma mb fuel s h ml = some v) :
    v = -1 ∨ ∃ t u b1, ma s h b1 = some t ∧ 0 ≤ t ∧
      mb (s + t) h (ml - t) = some u ∧ 0 ≤ u ∧ v = t + u := by
  unfold match_concatenation at hv
  cases hl : concatenation_loop ma mb s h ml fuel (-1) (ml + 1) with
  | none => simp [hl] at hv
  | some x =>
    obtain ⟨sl2, tryl2⟩ := x
    simp only [hl] at hv
    have hQ := concatenation_loop_rule
      (fun sl _ => sl < 0)
      (fun sl tryl => sl < 0 ∨ (∃ b1, ma s h b1 = some tryl ∧ 0 ≤ tryl ∧
        mb (s + tryl) h (ml - tryl) = some sl ∧ 0 ≤ sl))
      (by
        intro sl tryl sl1 tryl1 again hP hbody
        obtain ⟨hf, hcase⟩ := concatenation_body_eq hbody
        rcases hcase with ⟨_, rfl, rfl⟩ | ⟨ht, hsec, rfl⟩
        · exact ⟨by simp, fun _ => Or.inl hP⟩
        · constructor
          · intro hag
            simpa using hag
          · intro hag
            have hs0 : ¬ sl1 < 0 := by simpa using hag
            exact Or.inr ⟨tryl - 1, hf, ht, hsec, by omega⟩)
      fuel (-1) (ml + 1) sl2 tryl2 (by omega) hl
    by_cases hs : 0 ≤ sl2
    · have hm : has_match sl2 = true := (has_match_iff sl2).2 hs
      simp only [hm, Bool.not_true, Bool.false_eq_true, if_false, Option.some.injEq] at hv
      subst hv
      rcases hQ with hQ | ⟨b1, h1, ht, h2, hu⟩
      · omega
      · exact Or.inr ⟨tryl2, sl2, b1, h1, ht, h2, hu, rfl⟩
    · have hm : has_match sl2 = false := (has_match_false_iff sl2).2 (by omega)
      simp only [hm, Bool.not_false, if_true, Option.some.injEq] at hv
      exact Or.inl hv.symm

theorem get_matcher_ne_zero (r : Regex) (hr : nullable r = false) :
    ∀ (fuel : Nat) (s : Int) (h : Buffer) (b v : Int),
      get_matcher fuel r s h b = some v → v ≠ 0 := by
  induction r with
  | null => simp [nullable] at hr
  | chr c =>
    intro fuel s h b v hv
    simp only [get_matcher, match_char_eq, Option.some.injEq] at hv
    split at hv <;> omega
  | cnc a c iha ihc =>
    intro fuel s h b v hv
    simp only [get_matcher] at hv
    rcases match_concatenation_parts hv with hv1 | ⟨t, u, b1, h1, ht, h2, hu, rfl⟩
    · omega
    · simp only [nullable, Bool.and_eq_false_iff] at hr
      rcases hr with hr | hr
      · have := iha hr fuel s h b1 t h1
        omega
      · have := ihc hr fuel (s + t) h (b - t) u h2
        omega
  | kls a _ => simp [nullable] at hr
  | alt a c iha ihc =>
    intro fuel s h b v hv
    simp only [nullable, Bool.or_eq_false_iff] at hr
    simp only [get_matcher, match_alternation] at hv
    cases h1 : get_matcher fuel a s h b with
    | none => simp [h1] at hv
    | some f =>
      cases h2 : get_matcher fuel c s h b with
      | none => simp [h1, h2] at hv
      | some g =>
        simp only [h1, h2] at hv
        have hf := iha hr.1 fuel s h b f h1
        have hg := ihc hr.2 fuel s h b g h2
        split at hv <;> simp only [Option.some.injEq] at hv <;> subst hv <;> assumption

/-! ## Termination with an explicit bound on the fuel -/

theorem concatenation_loop_answers {a : Regex} {ma mb : matcher_def} {B : Int}
    (hsa : Spec a ma) (hta : Answers ma B) (htb : Answers mb B)
    (s : Int) (h : Buffer) (ml : Int) (hml : ml ≤ B) :
    ∀ (n : Nat) (sl tryl : Int), tryl ≤ ml + 1 → tryl + 1 ≤ n → 1 ≤ n →
      ∃ res, concatenation_loop ma mb s h ml n sl tryl = some res := by
  intro n
  induction n with
  | zero => intro sl tryl _ _ h1; omega
  | succ n ih =>
    intro sl tryl htl hn _
    obtain ⟨t, h1⟩ := hta s h (tryl - 1) (by omega)
    rw [concatenation_loop_succ]
    by_cases ht : t < 0
    · rw [concatenation_body_break h1 ht]
      exact ⟨_, rfl⟩
    · have ht0 : 0 ≤ t := by omega
      have hrange := hsa s h (tryl - 1) t h1
      have htle : t ≤ tryl - 1 := by
        rcases hrange with hrange | ⟨_, hle, _⟩
        · omega
        · exact hle
      obtain ⟨u, h2⟩ := htb (s + t) h (ml - t) (by omega)
      rw [concatenation_body_both h1 ht0 h2]
      by_cases hu : u < 0
      · simp only [hu, decide_True, if_true]
        exact ih u t (by omega) (by omega) (by omega)
      · simp only [hu, decide_False, Bool.false_eq_true, if_false]
        exact ⟨_, rfl⟩

theorem kleene_loop_answers {a : Regex} {ma : matcher_def} {B : Int}
    (hsa : Spec a ma) (hnz : ∀ s h b v, ma s h b = some v → v ≠ 0)
    (hta : Answers ma B)
    (s : Int) (h : Buffer) (ml : Int) (hml : ml ≤ B) :
    ∀ (n : Nat) (tot : Int), 0 ≤ tot → tot ≤ ml → ml - tot + 1 ≤ n →
      ∃ v, kleene_loop ma s h ml n tot = some v := by
  intro n
  induction n with
  | zero => intro tot _ _ h1; omega
  | succ n ih =>
    intro tot ht0 htl hn
    obtain ⟨l, h1⟩ := hta (s + tot) h (ml - tot) (by omega)
    have hrange := hsa (s + tot) h (ml - tot) l h1
    have hne := hnz (s + tot) h (ml - tot) l h1
    by_cases hl : l < 0
    · rw [kleene_loop_stop n h1 hl]
      exact ⟨_, rfl⟩
    · have hl0 : 0 < l := by omega
      rw [kleene_loop_more n h1 hl0]
      have hle : l ≤ ml - tot := by
        rcases hrange with hrange | ⟨_, hle, _⟩
        · omega
        · exact hle
      exact ih (tot + l) (by omega) (by omega) (by omega)

theorem get_matcher_answers (r : Regex) (hr : NoNullStar r = true)
    (fuel : Nat) (B : Int) (hf1 : 1 ≤ fuel) (hfB : B + 2 ≤ fuel) :
    Answers (get_matcher fuel r) B := by
  induction r with
  | null => intro s h b _; exact ⟨_, rfl⟩
  | chr c => intro s h b _; exact ⟨_, rfl⟩
  | cnc a c iha ihc =>
    simp only [NoNullStar, Bool.and_eq_true] at hr
    intro s h b hb
    obtain ⟨⟨sl, tryl⟩, hl⟩ := concatenation_loop_answers (get_matcher_spec fuel a)
      (iha hr.1) (ihc hr.2) s h b hb fuel (-1) (b + 1) (le_refl _) (by omega) hf1
    simp only [get_matcher, match_concatenation, hl]
    split <;> exact ⟨_, rfl⟩
  | kls a iha =>
    simp only [NoNullStar, Bool.and_eq_true, Bool.not_eq_true'] at hr
    intro s h b hb
    simp only [get_matcher, match_kleene]
    by_cases hb0 : b < 0
    · simp only [hb0, if_true]
      exact ⟨_, rfl⟩
    · simp only [hb0, if_false]
      exact kleene_loop_answers (get_matcher_spec fuel a)
        (get_matcher_ne_zero a hr.1 fuel) (iha hr.2) s h b hb fuel 0 (le_refl _)
        (by omega) (by omega)
  | alt a c iha ihc =>
    simp only [NoNullStar, Bool.and_eq_true] at hr
    intro s h b hb
    obtain ⟨f, h1⟩ := iha hr.1 s h b hb
    obtain ⟨g, h2⟩ := ihc hr.2 s h b hb
    simp only [get_matcher, match_alternation, h1, h2]
    split <;> exact ⟨_, rfl⟩

/-! ## Splitting a string of a concatenation or of a star -/

theorem slice_split {h : Buffer} {s : Int} {n : Nat} {u w : List Char}
    (hs : slice h s n = u ++ w) :
    n = u.length + w.length ∧ u = slice h s u.length ∧
      w = slice h (s + (u.length : Int)) w.length := by
  have hlen : n = u.length + w.length := by
    have := congrArg List.length hs
    simpa [slice_length] using this
  refine ⟨hlen, ?_⟩
  have h2 : slice h s u.length ++ slice h (s + (u.length : Int)) w.length = u ++ w := by
    rw [← slice_add, ← hlen, hs]
  have h3 := List.append_inj h2 (slice_length h s u.length)
  exact ⟨h3.1.symm, h3.2.symm⟩

theorem NonEnd_left {h : Buffer} {s n t : Int} (hn : NonEnd h s n) (ht : t ≤ n) :
    NonEnd h s t :=
  fun k hk0 hk => hn k hk0 (by omega)

theorem NonEnd_right {h : Buffer} {s n t : Int} (hn : NonEnd h s n) (ht : 0 ≤ t) :
    NonEnd h (s + t) (n - t) := by
  intro k hk0 hk
  have := hn (t + k) (by omega) (by omega)
  rwa [← add_assoc] at this

theorem Good_cnc_split {a c : Regex} {h : Buffer} {s n : Int} (hn : 0 ≤ n)
    (hg : Good (.cnc a c) h s n) :
    ∃ t u : Int, 0 ≤ t ∧ 0 ≤ u ∧ n = t + u ∧ Good a h s t ∧ Good c h (s + t) u := by
  obtain ⟨hne, hl⟩ := hg
  simp only [Lang] at hl
  obtain ⟨x, hx, y, hy, hxy⟩ := Language.mem_mul.1 hl
  obtain ⟨hlen, hx2, hy2⟩ := slice_split hxy.symm
  have hn2 : n = (x.length : Int) + (y.length : Int) := by
    have := Int.toNat_of_nonneg hn
    omega
  refine ⟨x.length, y.length, by omega, by omega, hn2, ⟨NonEnd_left hne (by omega), ?_⟩,
    ⟨?_, ?_⟩⟩
  · rw [Int.toNat_ofNat, ← hx2]; exact hx
  · have := NonEnd_right (t := (x.length : Int)) hne (by omega)
    rwa [show n - (x.length : Int) = (y.length : Int) by omega] at this
  · rw [Int.toNat_ofNat, ← hy2]; exact hy

theorem Good_kls_split {a : Regex} {h : Buffer} {s n : Int} (hn : 0 < n)
    (hg : Good (.kls a) h s n) :
    ∃ t u : Int, 0 < t ∧ 0 ≤ u ∧ n = t + u ∧ Good a h s t ∧ Good (.kls a) h (s + t) u := by
  obtain ⟨hne, hl⟩ := hg
  simp only [Lang] at hl
  obtain ⟨S, hS, hall⟩ := Language.mem_kstar_iff_exists_nonempty.1 hl
  cases S with
  | nil =>
    have := congrArg List.length hS
    simp only [slice_length, List.flatten_nil, List.length_nil] at this
    omega
  | cons x S1 =>
    rw [List.flatten_cons] at hS
    obtain ⟨hlen, hx2, hy2⟩ := slice_split hS
    have hx := hall x (List.mem_cons_self _ _)
    have hxpos : 0 < x.length := List.length_pos.2 hx.2
    have hn2 : n = (x.length : Int) + (S1.flatten.length : Int) := by
      have := Int.toNat_of_nonneg (le_of_lt hn)
      omega
    refine ⟨x.length, S1.flatten.length, by omega, by omega, hn2,
      ⟨NonEnd_left hne (by omega), ?_⟩, ⟨?_, ?_⟩⟩
    · rw [Int.toNat_ofNat, ← hx2]; exact hx.1
    · have := NonEnd_right (t := (x.length : Int)) hne (by omega)
      rwa [show n - (x.length : Int) = (S1.flatten.length : Int) by omega] at this
    · rw [Int.toNat_ofNat, ← hy2]
      simp only [Lang]
      exact Language.mem_kstar.2
        ⟨S1, rfl, fun y hy => (hall y (List.mem_cons_of_mem _ hy)).1⟩

theorem width_length (r : Regex) : ∀ (k : Nat) (w : List Char),
    width r = some k → w ∈ Lang r → w.length = k := by
  induction r with
  | null =>
    intro k w hk hw
    simp only [width, Option.some.injEq] at hk
    simp only [Lang, Language.mem_one] at hw
    subst hw; subst hk; rfl
  | chr c =>
    intro k w hk hw
    simp only [width, Option.some.injEq] at hk
    subst hk
    simp only [Lang] at hw
    split at hw
    · obtain ⟨x, _, rfl⟩ := hw; rfl
    · have : w = [c] := hw
      subst this; rfl
  | cnc a c iha ihc =>
    intro k w hk hw
    simp only [width] at hk
    cases ha : width a with
    | none => simp [ha] at hk
    | some m =>
      cases hc : width c with
      | none => simp [ha, hc] at hk
      | some n =>
        simp only [ha, hc, Option.some.injEq] at hk
        simp only [Lang] at hw
        obtain ⟨x, hx, y, hy, rfl⟩ := Language.mem_mul.1 hw
        rw [List.length_append, iha m x ha hx, ihc n y hc hy, hk]
  | kls a _ =>
    intro k w hk
    simp [width] at hk
  | alt a c iha ihc =>
    intro k w hk hw
    simp only [width] at hk
    cases ha : width a with
    | none => simp [ha] at hk
    | some m =>
      cases hc : width c with
      | none => simp [ha, hc] at hk
      | some n =>
        simp only [ha, hc] at hk
        by_cases hmn : m = n
        · simp only [hmn, if_true, Option.some.injEq] at hk
          simp only [Lang] at hw
          rcases (Language.mem_add _ _ _).1 hw with hw | hw
          · rw [iha m w ha hw, hmn, hk]
          · rw [ihc n w hc hw, hk]
        · simp [hmn] at hk

theorem Good_width {r : Regex} {h : Buffer} {s t : Int} {k : Nat} (ht : 0 ≤ t)
    (hk : width r = some k) (hg : Good r h s t) : t = k := by
  have := width_length r k _ hk hg.2
  rw [slice_length] at this
  have := Int.toNat_of_nonneg ht
  omega

/-! ## When the result is the largest attainable length -/

theorem Maximal_null (fuel : Nat) : Maximal .null (get_matcher fuel .null) := by
  intro s h b v n hv hn hnb hg
  have hn0 : n = 0 := by
    have := Good_width (r := .null) hn rfl hg
    simpa using this
  subst hn0
  have : ¬ b < 0 := by omega
  simp only [get_matcher, match_null_eq, this, if_false, Option.some.injEq] at hv
  omega

theorem Maximal_chr (fuel : Nat) (c : Char) :
    Maximal (.chr c) (get_matcher fuel (.chr c)) := by
  intro s h b v n hv hn hnb hg
  have hn1 : n = 1 := by
    have := Good_width (r := .chr c) hn rfl hg
    simpa using this
  subst hn1
  have he : is_end (h s) = false := by simpa using hg.1 0 (le_refl _) (by omega)
  have hc : c = NUL ∨ c = h s := by
    have hl := hg.2
    have h1 : (1 : Int).toNat = 1 := rfl
    rw [h1, slice_one] at hl
    simp only [Lang] at hl
    by_cases hN : c = NUL
    · exact Or.inl hN
    · simp only [hN, if_false] at hl
      have : [h s] = [c] := hl
      simp only [List.cons.injEq, and_true] at this
      exact Or.inr this.symm
  have hcond : 1 ≤ b ∧ is_end (h s) = false ∧ (c = NUL ∨ c = h s) := ⟨hnb, he, hc⟩
  simp only [get_matcher, match_char_eq, hcond, and_self, if_true, Option.some.injEq] at hv
  omega

theorem Maximal_alt {a c : Regex} {ma mc : matcher_def} (ha : Maximal a ma)
    (hc : Maximal c mc) : Maximal (.alt a c) (match_alternation ma mc) := by
  intro s h b v n hv hn hnb hg
  unfold match_alternation at hv
  cases h1 : ma s h b with
  | none => simp [h1] at hv
  | some f =>
    cases h2 : mc s h b with
    | none => simp [h1, h2] at hv
    | some g =>
      simp only [h1, h2] at hv
      have hl := hg.2
      simp only [Lang] at hl
      have hmax : n ≤ f ∨ n ≤ g := by
        rcases (Language.mem_add _ _ _).1 hl with hl | hl
        · exact Or.inl (ha s h b f n h1 hn hnb ⟨hg.1, hl⟩)
        · exact Or.inr (hc s h b g n h2 hn hnb ⟨hg.1, hl⟩)
      split at hv <;> simp only [Option.some.injEq] at hv <;> omega

theorem Maximal_cnc {a c : Regex} {ma mc : matcher_def}
    (hw : (width a).isSome = true ∨ (width c).isSome = true)
    (hsa : Spec a ma) (hsc : Spec c mc) (ha : Maximal a ma) (hc : Maximal c mc)
    (fuel : Nat) : Maximal (.cnc a c) (match_concatenation ma mc fuel) := by
  intro s h ml v n hv hn hnb hg
  obtain ⟨t0, u0, ht0, hu0, rfl, hga, hgc⟩ := Good_cnc_split hn hg
  unfold match_concatenation at hv
  cases hl : concatenation_loop ma mc s h ml fuel (-1) (ml + 1) with
  | none => simp [hl] at hv
  | some x =>
    obtain ⟨sl2, tryl2⟩ := x
    simp only [hl] at hv
    have hQ := concatenation_loop_rule
      (fun _ tryl => t0 < tryl)
      (fun sl tryl => 0 ≤ sl ∧ t0 + u0 ≤ tryl + sl)
      (by
        intro sl tryl sl1 tryl1 again hP hbody
        obtain ⟨hf, hcase⟩ := concatenation_body_eq hbody
        have hmax := ha s h (tryl - 1) tryl1 t0 hf ht0 (by omega) hga
        rcases hcase with ⟨ht, _, _⟩ | ⟨ht, hsec, rfl⟩
        · omega
        · have hfa := hsa s h (tryl - 1) tryl1 hf
          have hfc := hsc (s + tryl1) h (ml - tryl1) sl1 hsec
          have hsame : tryl1 = t0 → u0 ≤ sl1 := by
            intro heq
            subst heq
            exact hc (s + tryl1) h (ml - tryl1) sl1 u0 hsec hu0 (by omega) hgc
          constructor
          · intro hag
            have hneg : sl1 < 0 := by simpa using hag
            by_contra hcon
            have heq : tryl1 = t0 := by omega
            have := hsame heq
            omega
          · intro hag
            have hs0 : 0 ≤ sl1 := by
              have : ¬ sl1 < 0 := by simpa using hag
              omega
            refine ⟨hs0, ?_⟩
            by_cases heq : tryl1 = t0
            · have := hsame heq
              omega
            · rcases hw with hw | hw
              · obtain ⟨k, hk⟩ := Option.isSome_iff_exists.1 hw
                rcases hfa with hfa | ⟨_, _, hfg⟩
                · omega
                · have e1 := Good_width ht hk hfg
                  have e2 := Good_width ht0 hk hga
                  omega
              · obtain ⟨k, hk⟩ := Option.isSome_iff_exists.1 hw
                rcases hfc with hfc | ⟨_, _, hfg⟩
                · omega
                · have e1 := Good_width hs0 hk hfg
                  have e2 := Good_width hu0 hk hgc
                  omega)
      fuel (-1) (ml + 1) sl2 tryl2 (by omega) hl
    have hm : has_match sl2 = true := (has_match_iff sl2).2 hQ.1
    simp only [hm, Bool.not_true, Bool.false_eq_true, if_false, Option.some.injEq] at hv
    omega

theorem kleene_loop_ge {ma : matcher_def} {s : Int} {h : Buffer} {ml : Int} :
    ∀ (fuel : Nat) (tot v : Int), kleene_loop ma s h ml fuel tot = some v → tot ≤ v := by
  intro fuel tot v hv
  exact kleene_loop_rule (fun t => tot ≤ t) (fun t => tot ≤ t)
    (by
      intro t l t1 hP hbody
      obtain ⟨_, rfl⟩ := kleene_body_eq hbody
      have : t ≤ (if l > 0 then t + l else t) := by
        split <;> omega
      exact ⟨fun _ => by omega, fun _ => by omega⟩)
    fuel tot v (le_refl _) hv

theorem kleene_loop_maximal {a : Regex} {ma : matcher_def} {k : Nat}
    (hk : width a = some k) (hsa : Spec a ma) (ha : Maximal a ma)
    (s : Int) (h : Buffer) (ml : Int) :
    ∀ (fuel : Nat) (tot v n : Int), kleene_loop ma s h ml fuel tot = some v →
      0 ≤ n → tot + n ≤ ml → Good (.kls a) h (s + tot) n → tot + n ≤ v := by
  intro fuel
  induction fuel with
  | zero => intro tot v n hv; simp [kleene_loop] at hv
  | succ f ih =>
    intro tot v n hv hn hnb hg
    by_cases hn0 : n = 0
    · have := kleene_loop_ge (f + 1) tot v hv
      omega
    · obtain ⟨t, u, ht, hu, rfl, hga, hgk⟩ := Good_kls_split (by omega) hg
      cases hin : ma (s + tot) h (ml - tot) with
      | none => simp [kleene_loop_succ, kleene_body, hin] at hv
      | some l =>
        have hmax := ha (s + tot) h (ml - tot) l t hin (by omega) (by omega) hga
        have hl : l = t := by
          rcases hsa (s + tot) h (ml - tot) l hin with h1 | ⟨hl0, _, hlg⟩
          · omega
          · have e1 := Good_width hl0 hk hlg
            have e2 := Good_width (le_of_lt ht) hk hga
            omega
        subst hl
        rw [kleene_loop_more f hin ht] at hv
        have := ih (tot + l) v u hv hu (by omega)
          (by rwa [show s + (tot + l) = s + tot + l by ring])
        omega

theorem Maximal_kls {a : Regex} {ma : matcher_def}
    (hw : (width a).isSome = true) (hsa : Spec a ma) (ha : Maximal a ma)
    (fuel : Nat) : Maximal (.kls a) (match_kleene ma fuel) := by
  intro s h ml v n hv hn hnb hg
  obtain ⟨k, hk⟩ := Option.isSome_iff_exists.1 hw
  unfold match_kleene at hv
  have : ¬ ml < 0 := by omega
  simp only [this, if_false] at hv
  have := kleene_loop_maximal hk hsa ha s h ml fuel 0 v n hv hn (by omega)
    (by simpa using hg)
  omega

theorem get_matcher_maximal (fuel : Nat) (r : Regex) (hr : Stepwise r = true) :
    Maximal r (get_matcher fuel r) := by
  induction r with
  | null => exact Maximal_null fuel
  | chr c => exact Maximal_chr fuel c
  | cnc a c iha ihc =>
    simp only [Stepwise, Bool.and_eq_true, Bool.or_eq_true] at hr
    exact Maximal_cnc hr.1.1 (get_matcher_spec fuel a) (get_matcher_spec fuel c)
      (iha hr.1.2) (ihc hr.2) fuel
  | kls a iha =>
    simp only [Stepwise, Bool.and_eq_true] at hr
    exact Maximal_kls hr.1 (get_matcher_spec fuel a) (iha hr.2) fuel
  | alt a c iha ihc =>
    simp only [Stepwise, Bool.and_eq_true] at hr
    exact Maximal_alt (iha hr.1) (ihc hr.2)

/-! ## A star over an expression that matches one character at a time -/

theorem kleene_loop_run {inner : matcher_def} {s : Int} {h : Buffer} {ml : Int} :
    ∀ (m : Nat) (tot : Int) (fuel : Nat),
      (∀ j : Int, tot ≤ j → j < tot + m → inner (s + j) h (ml - j) = some 1) →
      (∃ l, inner (s + (tot + m)) h (ml - (tot + m)) = some l ∧ l < 0) →
      m + 1 ≤ fuel → kleene_loop inner s h ml fuel tot = some (tot + m) := by
  intro m
  induction m with
  | zero =>
    intro tot fuel _ hstop hf
    obtain ⟨l, hl, hneg⟩ := hstop
    obtain ⟨n, rfl⟩ : ∃ n, fuel = n + 1 := ⟨fuel - 1, by omega⟩
    simp only [Nat.cast_zero, add_zero] at hl ⊢
    exact kleene_loop_stop n hl hneg
  | succ m ih =>
    intro tot fuel hrun hstop hf
    obtain ⟨n, rfl⟩ : ∃ n, fuel = n + 1 := ⟨fuel - 1, by omega⟩
    have h1 := hrun tot (le_refl _) (by push_cast; omega)
    rw [kleene_loop_more n h1 (by omega)]
    have := ih (tot + 1) n
      (fun j hj1 hj2 => hrun j (by omega) (by push_cast; omega))
      (by
        obtain ⟨l, hl, hneg⟩ := hstop
        refine ⟨l, ?_, hneg⟩
        rw [show tot + 1 + (m : Int) = tot + ((m + 1 : Nat) : Int) by push_cast; ring]
        exact hl)
      (by omega)
    rw [this]
    congr 1
    push_cast
    ring

/-- The star over a matcher that takes one character from each of the `n` positions
after `s` (budget permitting) and fails at position `s + n`: with a budget `b ≥ 0` the
result is the smaller of `n` and `b`. -/
theorem match_kleene_run {inner : matcher_def} {s : Int} {h : Buffer} {b : Int}
    (n : Nat) (fuel : Nat) (hb : 0 ≤ b)
    (hrun : ∀ j c : Int, 0 ≤ j → j < n → 1 ≤ c → inner (s + j) h c = some 1)
    (hstop : ∀ c : Int, inner (s + n) h c = some (-1))
    (hzero : ∀ j : Int, inner (s + j) h 0 = some (-1))
    (hf : min (n : Int) b + 1 ≤ fuel) :
    match_kleene inner fuel s h b = some (min (n : Int) b) := by
  have hnb : ¬ b < 0 := by omega
  simp only [match_kleene, hnb, if_false]
  have hm : min (n : Int) b = ((min (n : Int) b).toNat : Int) := by
    rw [Int.toNat_of_nonneg]; omega
  have := @kleene_loop_run inner s h b (min (n : Int) b).toNat 0 fuel
    (by
      intro j hj0 hj
      exact hrun j (b - j) hj0 (by omega) (by omega))
    (by
      refine ⟨-1, ?_, by omega⟩
      rw [zero_add, ← hm]
      by_cases hle : (n : Int) ≤ b
      · rw [min_eq_left hle]; exact hstop _
      · rw [min_eq_right (by omega), sub_self]; exact hzero _)
    (by omega)
  rw [this, zero_add, ← hm]

/-! ## Concatenations that succeed on the first or on the second pass -/

theorem match_concatenation_first {ma mb : matcher_def} {s : Int} {h : Buffer}
    {ml t u : Int} (fuel : Nat) (hf : 1 ≤ fuel)
    (h1 : ma s h ml = some t) (ht : 0 ≤ t)
    (h2 : mb (s + t) h (ml - t) = some u) (hu : 0 ≤ u) :
    match_concatenation ma mb fuel s h ml = some (t + u) := by
  obtain ⟨n, rfl⟩ : ∃ n, fuel = n + 1 := ⟨fuel - 1, by omega⟩
  have h1a : ma s h (ml + 1 - 1) = some t := by rwa [add_sub_cancel_right]
  have hu2 : ¬ u < 0 := by omega
  have hm : has_match u = true := (has_match_iff u).2 hu
  simp [match_concatenation, concatenation_loop_succ, concatenation_body_both h1a ht h2,
    hu2, hm]

theorem match_concatenation_second {ma mb : matcher_def} {s : Int} {h : Buffer}
    {ml t u t2 u2 : Int} (fuel : Nat) (hf : 2 ≤ fuel)
    (h1 : ma s h ml = some t) (ht : 0 ≤ t)
    (h2 : mb (s + t) h (ml - t) = some u) (hu : u < 0)
    (h3 : ma s h (t - 1) = some t2) (ht2 : 0 ≤ t2)
    (h4 : mb (s + t2) h (ml - t2) = some u2) (hu2 : 0 ≤ u2) :
    match_concatenation ma mb fuel s h ml = some (t2 + u2) := by
  obtain ⟨n, rfl⟩ : ∃ n, fuel = n + 2 := ⟨fuel - 2, by omega⟩
  have h1a : ma s h (ml + 1 - 1) = some t := by rwa [add_sub_cancel_right]
  have hu3 : ¬ u2 < 0 := by omega
  have hm : has_match u2 = true := (has_match_iff u2).2 hu2
  simp [match_concatenation, concatenation_loop_succ, concatenation_body_both h1a ht h2,
    hu, concatenation_body_both h3 ht2 h4, hu3, hm]

theorem is_end_eq_false_iff (c : Char) : is_end c = false ↔ c ≠ NUL ∧ c ≠ '\n' := by
  simp [is_end]

theorem get_matcher_chr (fuel : Nat) (c : Char) (s : Int) (h : Buffer) (b : Int) :
    get_matcher fuel (.chr c) s h b =
      some (if 1 ≤ b ∧ is_end (h s) = false ∧ (c = NUL ∨ c = h s) then 1 else -1) := by
  simp only [get_matcher, match_char_eq]

theorem get_matcher_cnc (fuel : Nat) (a c : Regex) :
    get_matcher fuel (.cnc a c) =
      match_concatenation (get_matcher fuel a) (get_matcher fuel c) fuel := rfl

theorem get_matcher_kls (fuel : Nat) (a : Regex) :
    get_matcher fuel (.kls a) = match_kleene (get_matcher fuel a) fuel := rfl

theorem get_matcher_alt (fuel : Nat) (a c : Regex) :
    get_matcher fuel (.alt a c) =
      match_alternation (get_matcher fuel a) (get_matcher fuel c) := rfl

theorem get_matcher_null (fuel : Nat) (s : Int) (h : Buffer) (b : Int) :
    get_matcher fuel .null s h b = some (if b < 0 then -1 else 0) := rfl

theorem slice_mem {h : Buffer} {s : Int} {n : Nat} {w : List Char}
    (hs : slice h s n = w) (j : Int) (hj0 : 0 ≤ j) (hj : j < n) : h (s + j) ∈ w := by
  rw [← hs, slice]
  refine List.mem_map.2 ⟨j.toNat, List.mem_range.2 (by omega), ?_⟩
  rw [Int.toNat_of_nonneg hj0]

/-! ## Claims about the matcher on arbitrary trees -/

/-- C1 (soundness of the matcher). Whenever the matcher of a node, run on a haystack
from a start offset with a budget, returns a length `n ≥ 0`, the `n` characters
`haystack[start .. start+n)` are all different from the end markers and form a string
of the regular language denoted by the node. This holds from every start offset, so
in particular from those at or before the first end marker of the haystack. -/
theorem matcher_sound (r : Regex) (haystack : Buffer) (start budget : Int)
    (fuel : Nat) (n : Int)
    (hret : get_matcher fuel r start haystack budget = some n) (hn : 0 ≤ n) :
    (∀ k : Int, 0 ≤ k → k < n → is_end (haystack (start + k)) = false) ∧
      slice haystack start n.toNat ∈ Lang r := by
  rcases get_matcher_spec fuel r start haystack budget n hret with h1 | ⟨_, _, hg⟩
  · omega
  · exact hg

/-- Witness of C1: the tree of `a*a` on the haystack `aaa`, which returns 3. -/
theorem matcher_sound_witness :
    get_matcher 4 (.cnc (.kls (.chr 'a')) (.chr 'a')) 0 (cstr "aaa") 65535 = some 3 ∧
    (0 : Int) ≤ 3 ∧
    ((∀ k : Int, 0 ≤ k → k < 3 → is_end (cstr "aaa" (0 + k)) = false) ∧
      slice (cstr "aaa") 0 (3 : Int).toNat ∈ Lang (.cnc (.kls (.chr 'a')) (.chr 'a'))) :=
  ⟨by decide!, by decide,
    matcher_sound (.cnc (.kls (.chr 'a')) (.chr 'a')) (cstr "aaa") 0 65535 4 3
      (by decide!) (by decide)⟩

/-- C3 (range of the result). For every node, the NULL node included, every haystack,
start offset and budget: whenever the matcher returns, it returns `NO_MATCH` (`-1`) or
a length `n` with `0 ≤ n ≤ budget`; with a negative budget every node does return
and returns `NO_MATCH`; and 0 counts as a match (`has_match`) while `NO_MATCH` does
not. -/
theorem result_range (r : Regex) (haystack : Buffer) (start budget : Int) :
    (∀ (fuel : Nat) (v : Int), get_matcher fuel r start haystack budget = some v →
        v = NO_MATCH ∨ (0 ≤ v ∧ v ≤ budget)) ∧
    (budget < 0 → ∀ fuel : Nat, 1 ≤ fuel →
        get_matcher fuel r start haystack budget = some NO_MATCH) ∧
    (has_match 0 = true ∧ has_match NO_MATCH = false ∧ (0 : Int) ≠ NO_MATCH) := by
  refine ⟨?_, ?_, ?_⟩
  · intro fuel v hv
    rcases get_matcher_spec fuel r start haystack budget v hv with h1 | ⟨h0, hb, _⟩
    · exact Or.inl h1
    · exact Or.inr ⟨h0, hb⟩
  · intro hb fuel hf
    exact get_matcher_neg r fuel start haystack budget hf hb
  · decide

/-- C4 (termination of matching). For a tree in which no star is over an expression
that can match the empty string, the matcher returns for every haystack, start offset
and budget, as soon as the fuel allows `budget + 2` passes of each loop (and at least
one); hence `get_match` returns with 65537. Moreover every pass of the concatenation
loop that is followed by another one leaves `tryl` smaller, so the left operand is
handed a strictly smaller budget `tryl - 1` each time, and every pass of the star loop
that is followed by another one strictly increases `tot`. -/
theorem matcher_terminates (r : Regex) (hr : NoNullStar r = true)
    (haystack : Buffer) (start budget : Int) :
    (∀ fuel : Nat, 1 ≤ fuel → budget + 2 ≤ fuel →
        ∃ v, get_matcher fuel r start haystack budget = some v) ∧
    (∃ v, get_match 65537 start haystack r = some v) ∧
    (∀ a c, r = .cnc a c → ∀ (fuel : Nat) (sl tryl sl1 tryl1 : Int),
        concatenation_body (get_matcher fuel a) (get_matcher fuel c) start haystack budget
          sl tryl = some (sl1, tryl1, true) → tryl1 - 1 < tryl - 1) ∧
    (∀ a, r = .kls a → ∀ (fuel : Nat) (tot l tot1 : Int),
        kleene_body (get_matcher fuel a) start haystack budget tot = some (l, tot1) →
        has_match l = true → tot < tot1) := by
  refine ⟨?_, ?_, ?_, ?_⟩
  · intro fuel hf1 hfb
    exact get_matcher_answers r hr fuel budget hf1 hfb start haystack budget (le_refl _)
  · exact get_matcher_answers r hr 65537 65535 (by omega) (by norm_num) start haystack
      65535 (le_refl _)
  · intro a c _ fuel sl tryl sl1 tryl1 hbody
    obtain ⟨hf, hcase⟩ := concatenation_body_eq hbody
    rcases hcase with ⟨_, _, hfalse⟩ | ⟨ht, _, _⟩
    · simp at hfalse
    · rcases get_matcher_spec fuel a start haystack (tryl - 1) tryl1 hf with h1 | ⟨_, hle, _⟩
      · omega
      · omega
  · intro a ha fuel tot l tot1 hbody hl
    subst ha
    simp only [NoNullStar, Bool.and_eq_true, Bool.not_eq_true'] at hr
    obtain ⟨hin, rfl⟩ := kleene_body_eq hbody
    have hne := get_matcher_ne_zero a hr.1 fuel _ _ _ _ hin
    have h0 := (has_match_iff l).1 hl
    have hl0 : l > 0 := by omega
    simp only [hl0, if_true]
    omega

/-- Witness of C4: the tree of `(a|b)*c` on the haystack `ababc`. -/
theorem matcher_terminates_witness :
    NoNullStar (.cnc (.kls (.alt (.chr 'a') (.chr 'b'))) (.chr 'c')) = true ∧
    ∃ v, get_match 65537 0 (cstr "ababc")
      (.cnc (.kls (.alt (.chr 'a') (.chr 'b'))) (.chr 'c')) = some v :=
  ⟨by decide,
    (matcher_terminates (.cnc (.kls (.alt (.chr 'a') (.chr 'b'))) (.chr 'c')) (by decide)
      (cstr "ababc") 0 65535).2.1⟩

/-- Counterexample to C2 as stated. The tree of `(aa|aaa)*` contains no star over an
expression that can match the empty string; on the haystack `aaaa` with budget 4 its
matcher returns 3 although all 4 characters are a string of the language (`aa` twice).
The tree of `(aa|aaa)*b` on `aaaab` returns `NO_MATCH` from `get_match` although the 5
characters are a string of its language. -/
theorem largest_match_counterexample :
    (compile 12 (cstr "(aa|aaa)*") =
        some (.kls (.alt (.cnc (.chr 'a') (.chr 'a'))
          (.cnc (.cnc (.chr 'a') (.chr 'a')) (.chr 'a')))) ∧
      NoNullStar (.kls (.alt (.cnc (.chr 'a') (.chr 'a'))
          (.cnc (.cnc (.chr 'a') (.chr 'a')) (.chr 'a')))) = true ∧
      get_matcher 6 (.kls (.alt (.cnc (.chr 'a') (.chr 'a'))
          (.cnc (.cnc (.chr 'a') (.chr 'a')) (.chr 'a')))) 0 (cstr "aaaa") 4 = some 3 ∧
      (3 : Int) < 4 ∧ (4 : Int) ≤ 4 ∧
      Good (.kls (.alt (.cnc (.chr 'a') (.chr 'a'))
          (.cnc (.cnc (.chr 'a') (.chr 'a')) (.chr 'a')))) (cstr "aaaa") 0 4) ∧
    (compile 12 (cstr "(aa|aaa)*b") =
        some (.cnc (.kls (.alt (.cnc (.chr 'a') (.chr 'a'))
          (.cnc (.cnc (.chr 'a') (.chr 'a')) (.chr 'a')))) (.chr 'b')) ∧
      NoNullStar (.cnc (.kls (.alt (.cnc (.chr 'a') (.chr 'a'))
          (.cnc (.cnc (.chr 'a') (.chr 'a')) (.chr 'a')))) (.chr 'b')) = true ∧
      get_match 6 0 (cstr "aaaab") (.cnc (.kls (.alt (.cnc (.chr 'a') (.chr 'a'))
          (.cnc (.cnc (.chr 'a') (.chr 'a')) (.chr 'a')))) (.chr 'b')) = some NO_MATCH ∧
      (0 : Int) ≤ 5 ∧ (5 : Int) ≤ 65535 ∧
      Good (.cnc (.kls (.alt (.cnc (.chr 'a') (.chr 'a'))
          (.cnc (.cnc (.chr 'a') (.chr 'a')) (.chr 'a')))) (.chr 'b')) (cstr "aaaab") 0 5) := by
  have haa : ['a', 'a'] ∈ Lang (.alt (.cnc (.chr 'a') (.chr 'a'))
      (.cnc (.cnc (.chr 'a') (.chr 'a')) (.chr 'a'))) := by
    simp only [Lang]
    refine (Language.mem_add _ _ _).2 (Or.inl (Language.mem_mul.2 ⟨['a'], ?_, ['a'], ?_, rfl⟩))
    · rw [if_neg (by decide)]; rfl
    · rw [if_neg (by decide)]; rfl
  have hstar : ['a', 'a', 'a', 'a'] ∈ Lang (.kls (.alt (.cnc (.chr 'a') (.chr 'a'))
      (.cnc (.cnc (.chr 'a') (.chr 'a')) (.chr 'a')))) := by
    rw [Lang]
    refine Language.mem_kstar.2 ⟨[['a', 'a'], ['a', 'a']], rfl, ?_⟩
    intro y hy
    simp only [List.mem_cons, List.mem_singleton, List.not_mem_nil, or_false, or_self] at hy
    subst hy
    exact haa
  refine ⟨⟨by decide!, by decide, by decide!, by decide, by decide, ?_, ?_⟩,
    ⟨by decide!, by decide, by decide!, by decide, by decide, ?_, ?_⟩⟩
  · intro k hk0 hk
    have : k = 0 ∨ k = 1 ∨ k = 2 ∨ k = 3 := by omega
    rcases this with rfl | rfl | rfl | rfl <;> decide
  · have : slice (cstr "aaaa") 0 (4 : Int).toNat = ['a', 'a', 'a', 'a'] := by decide
    rw [this]
    exact hstar
  · intro k hk0 hk
    have : k = 0 ∨ k = 1 ∨ k = 2 ∨ k = 3 ∨ k = 4 := by omega
    rcases this with rfl | rfl | rfl | rfl | rfl <;> decide
  · have : slice (cstr "aaaab") 0 (5 : Int).toNat = ['a', 'a', 'a', 'a'] ++ ['b'] := by decide
    rw [this, Lang]
    refine Language.mem_mul.2 ⟨_, hstar, _, ?_, rfl⟩
    rw [Lang, if_neg (by decide)]; rfl

/-- C2 as amended. For a tree with no star over an expression that can match the empty
string, every haystack, start offset and budget `b`: the matcher returns, and its
value is `NO_MATCH` or a length `n` with `0 ≤ n ≤ b` such that `haystack[start ..
start+n)` is free of end markers and is a string of the language of the node; it is
`NO_MATCH` whenever no such `n` exists. When moreover every star is over an
expression of fixed width and every concatenation has an operand of fixed width, the
value is the largest such `n`, and it is `NO_MATCH` only when no such `n` exists. -/
theorem largest_match_amended (r : Regex) (hr : NoNullStar r = true)
    (haystack : Buffer) (start budget : Int) :
    ∃ (fuel : Nat) (v : Int), get_matcher fuel r start haystack budget = some v ∧
      (v = NO_MATCH ∨ (0 ≤ v ∧ v ≤ budget ∧ Good r haystack start v)) ∧
      ((¬ ∃ n : Int, 0 ≤ n ∧ n ≤ budget ∧ Good r haystack start n) → v = NO_MATCH) ∧
      (Stepwise r = true →
        (∀ n : Int, 0 ≤ n → n ≤ budget → Good r haystack start n → n ≤ v) ∧
        (v = NO_MATCH → ¬ ∃ n : Int, 0 ≤ n ∧ n ≤ budget ∧ Good r haystack start n)) := by
  obtain ⟨v, hv⟩ := get_matcher_answers r hr ((budget + 2).toNat + 1) budget (by omega)
    (by push_cast; omega) start haystack budget (le_refl _)
  have hspec := get_matcher_spec _ r start haystack budget v hv
  refine ⟨_, v, hv, hspec, ?_, ?_⟩
  · intro hno
    rcases hspec with h1 | ⟨h0, hb, hg⟩
    · exact h1
    · exact absurd ⟨v, h0, hb, hg⟩ hno
  · intro hs
    have hmax := get_matcher_maximal ((budget + 2).toNat + 1) r hs start haystack budget v
    refine ⟨fun n hn hnb hg => hmax n hv hn hnb hg, ?_⟩
    rintro hv1 ⟨n, hn, hnb, hg⟩
    have := hmax n hv hn hnb hg
    simp only [NO_MATCH] at hv1
    omega

/-- Witness of the amended C2: the tree of `a*a` on the haystack `aaa`. -/
theorem largest_match_amended_witness :
    NoNullStar (.cnc (.kls (.chr 'a')) (.chr 'a')) = true ∧
    ∃ (fuel : Nat) (v : Int),
      get_matcher fuel (.cnc (.kls (.chr 'a')) (.chr 'a')) 0 (cstr "aaa") 65535 = some v ∧
      (v = NO_MATCH ∨
        (0 ≤ v ∧ v ≤ 65535 ∧ Good (.cnc (.kls (.chr 'a')) (.chr 'a')) (cstr "aaa") 0 v)) ∧
      ((¬ ∃ n : Int, 0 ≤ n ∧ n ≤ 65535 ∧
          Good (.cnc (.kls (.chr 'a')) (.chr 'a')) (cstr "aaa") 0 n) → v = NO_MATCH) ∧
      (Stepwise (.cnc (.kls (.chr 'a')) (.chr 'a')) = true →
        (∀ n : Int, 0 ≤ n → n ≤ 65535 →
          Good (.cnc (.kls (.chr 'a')) (.chr 'a')) (cstr "aaa") 0 n → n ≤ v) ∧
        (v = NO_MATCH → ¬ ∃ n : Int, 0 ≤ n ∧ n ≤ 65535 ∧
          Good (.cnc (.kls (.chr 'a')) (.chr 'a')) (cstr "aaa") 0 n)) :=
  ⟨by decide,
    largest_match_amended (.cnc (.kls (.chr 'a')) (.chr 'a')) (by decide) (cstr "aaa") 0 65535⟩

/-! ## Claims about single patterns -/

/-- C7 (backtracking on `a*a`). The pattern `a*a` compiles to the concatenation of the
star of `a` with `a`, and for `1 ≤ n ≤ 65535`, on a haystack holding exactly `n`
consecutive `a` from the start offset (the character after them is not `a`),
`get_match` returns `n` once the fuel allows 65537 passes of a loop. -/
theorem star_then_literal (haystack : Buffer) (start n : Int) (fuel : Nat)
    (hn1 : 1 ≤ n) (hn2 : n ≤ 65535)
    (hrun : ∀ k : Int, 0 ≤ k → k < n → haystack (start + k) = 'a')
    (hstop : haystack (start + n) ≠ 'a') (hf : 65537 ≤ fuel) :
    compile 4 (cstr "a*a") = some (.cnc (.kls (.chr 'a')) (.chr 'a')) ∧
    get_match fuel start haystack (.cnc (.kls (.chr 'a')) (.chr 'a')) = some n := by
  refine ⟨by decide, ?_⟩
  have hane : is_end 'a' = false := by decide
  have haN : ¬ ('a' = NUL) := by decide
  have hstar : ∀ b : Int, 0 ≤ b →
      get_matcher fuel (.kls (.chr 'a')) start haystack b = some (min n b) := by
    intro b hb
    have hcast : ((n.toNat : Nat) : Int) = n := Int.toNat_of_nonneg (by omega)
    have := @match_kleene_run (get_matcher fuel (.chr 'a')) start haystack b n.toNat fuel hb
      (by
        intro j c hj0 hj hc
        rw [hcast] at hj
        rw [get_matcher_chr, hrun j hj0 hj]
        simp [hc, hane])
      (by
        intro c
        rw [hcast, get_matcher_chr]
        have : ¬ ('a' = haystack (start + n)) := fun e => hstop e.symm
        simp [haN, this])
      (by
        intro j
        rw [get_matcher_chr]
        simp)
      (by rw [hcast]; omega)
    rw [hcast] at this
    exact this
  have h1 := hstar 65535 (by omega)
  rw [min_eq_left hn2] at h1
  have h2 : get_matcher fuel (.chr 'a') (start + n) haystack (65535 - n) = some (-1) := by
    rw [get_matcher_chr]
    have : ¬ ('a' = haystack (start + n)) := fun e => hstop e.symm
    simp [haN, this]
  have h3 := hstar (n - 1) (by omega)
  rw [min_eq_right (by omega)] at h3
  have h4 : get_matcher fuel (.chr 'a') (start + (n - 1)) haystack (65535 - (n - 1)) =
      some 1 := by
    rw [get_matcher_chr, hrun (n - 1) (by omega) (by omega)]
    have : (1 : Int) ≤ 65535 - (n - 1) := by omega
    simp [this, hane]
  have := match_concatenation_second fuel (by omega) h1 (by omega) h2 (by omega) h3
    (by omega) h4 (by omega)
  rw [get_match, get_matcher_cnc, this]
  congr 1
  ring

/-- Witness of C7: `aaa` at offset 0 returns 3. -/
theorem star_then_literal_witness :
    compile 4 (cstr "a*a") = some (.cnc (.kls (.chr 'a')) (.chr 'a')) ∧
    get_match 65537 0 (cstr "aaa") (.cnc (.kls (.chr 'a')) (.chr 'a')) = some 3 :=
  star_then_literal (cstr "aaa") 0 3 65537 (by decide) (by decide)
    (by
      intro k hk0 hk
      have : k = 0 ∨ k = 1 ∨ k = 2 := by omega
      rcases this with rfl | rfl | rfl <;> decide)
    (by decide) (le_refl _)

/-- C8 (star over an alternation). The pattern `(a|b)*c` compiles to the concatenation
of the star of the alternation of `a` and `b` with `c`, and for every string `w` over
`a` and `b` with `|w| < 65535`, on a haystack holding `w` and then `c` from the start
offset (offset 0 in particular), `get_match` returns `|w| + 1`. -/
theorem star_of_alternation (w : List Char) (hw : ∀ x ∈ w, x = 'a' ∨ x = 'b')
    (hlen : w.length < 65535) (haystack : Buffer) (start : Int)
    (hhay : slice haystack start w.length = w)
    (hc : haystack (start + (w.length : Int)) = 'c') (fuel : Nat) (hf : 65537 ≤ fuel) :
    compile 8 (cstr "(a|b)*c") =
      some (.cnc (.kls (.alt (.chr 'a') (.chr 'b'))) (.chr 'c')) ∧
    get_match fuel start haystack (.cnc (.kls (.alt (.chr 'a') (.chr 'b'))) (.chr 'c')) =
      some ((w.length : Int) + 1) := by
  refine ⟨by decide, ?_⟩
  have h1 := @match_kleene_run (get_matcher fuel (.alt (.chr 'a') (.chr 'b'))) start haystack
    65535 w.length fuel (by omega)
    (by
      intro j c hj0 hj hc1
      rw [get_matcher_alt]
      rcases hw _ (slice_mem hhay j hj0 hj) with hx | hx
      · simp [match_alternation, get_matcher_chr, hx, hc1, is_end, NUL]
      · simp [match_alternation, get_matcher_chr, hx, hc1, is_end, NUL])
    (by
      intro c
      rw [get_matcher_alt]
      simp [match_alternation, get_matcher_chr, hc, NUL])
    (by
      intro j
      rw [get_matcher_alt]
      simp [match_alternation, get_matcher_chr])
    (by omega)
  rw [min_eq_left (by omega)] at h1
  have h2 : get_matcher fuel (.chr 'c') (start + (w.length : Int)) haystack
      (65535 - (w.length : Int)) = some 1 := by
    rw [get_matcher_chr, hc]
    have : (1 : Int) ≤ 65535 - (w.length : Int) := by omega
    simp [this, is_end, NUL]
  rw [get_match, get_matcher_cnc]
  exact match_concatenation_first fuel (by omega) h1 (by omega) h2 (by omega)

/-- Witness of C8: `ababc` at offset 0 returns 5. -/
theorem star_of_alternation_witness :
    compile 8 (cstr "(a|b)*c") =
      some (.cnc (.kls (.alt (.chr 'a') (.chr 'b'))) (.chr 'c')) ∧
    get_match 65537 0 (cstr "ababc") (.cnc (.kls (.alt (.chr 'a') (.chr 'b'))) (.chr 'c')) =
      some ((['a', 'b', 'a', 'b'].length : Int) + 1) :=
  star_of_alternation ['a', 'b', 'a', 'b'] (by decide) (by decide) (cstr "ababc") 0
    (by decide) (by decide) 65537 (le_refl _)

/-- C9 (greedy star on the wildcard). The pattern `.*` compiles to the star of the
wildcard literal, and on a haystack with `k ≤ 65535` characters that are no end marker
from the start offset up to an end marker, `get_match` returns exactly `k`. -/
theorem star_of_wildcard (haystack : Buffer) (start k : Int) (hk0 : 0 ≤ k)
    (hk : k ≤ 65535)
    (hrun : ∀ j : Int, 0 ≤ j → j < k → is_end (haystack (start + j)) = false)
    (hend : is_end (haystack (start + k)) = true) (fuel : Nat) (hf : 65537 ≤ fuel) :
    compile 4 (cstr ".*") = some (.kls (.chr NUL)) ∧
    get_match fuel start haystack (.kls (.chr NUL)) = some k := by
  refine ⟨by decide, ?_⟩
  have hcast : ((k.toNat : Nat) : Int) = k := Int.toNat_of_nonneg hk0
  have h1 := @match_kleene_run (get_matcher fuel (.chr NUL)) start haystack
    65535 k.toNat fuel (by omega)
    (by
      intro j c hj0 hj hc1
      rw [hcast] at hj
      rw [get_matcher_chr]
      simp [hc1, hrun j hj0 hj])
    (by
      intro c
      rw [hcast, get_matcher_chr]
      simp [hend])
    (by
      intro j
      rw [get_matcher_chr]
      simp)
    (by omega)
  rw [hcast, min_eq_left hk] at h1
  rw [get_match, get_matcher_kls]
  exact h1

/-- Witness of C9: `hello` at offset 0 returns 5. -/
theorem star_of_wildcard_witness :
    compile 4 (cstr ".*") = some (.kls (.chr NUL)) ∧
    get_match 65537 0 (cstr "hello") (.kls (.chr NUL)) = some 5 :=
  star_of_wildcard (cstr "hello") 0 5 (by decide) (by decide)
    (by
      intro j hj0 hj
      have : j = 0 ∨ j = 1 ∨ j = 2 ∨ j = 3 ∨ j = 4 := by omega
      rcases this with rfl | rfl | rfl | rfl | rfl <;> decide)
    (by decide) 65537 (le_refl _)

/-- C10 (empty alternative). The pattern `(a|)b` compiles to
`Concatenation(Alternation(Literal a, NULL), Literal b)`; on it `get_match` returns 2
when the haystack holds `a` then `b` at the offset, 1 when it holds `b` at the offset,
and `NO_MATCH` in every other case. -/
theorem empty_alternative (haystack : Buffer) (start : Int) (fuel : Nat) (hf : 3 ≤ fuel) :
    compile 8 (cstr "(a|)b") = some (.cnc (.alt (.chr 'a') .null) (.chr 'b')) ∧
    (haystack start = 'a' → haystack (start + 1) = 'b' →
      get_match fuel start haystack (.cnc (.alt (.chr 'a') .null) (.chr 'b')) = some 2) ∧
    (haystack start = 'b' →
      get_match fuel start haystack (.cnc (.alt (.chr 'a') .null) (.chr 'b')) = some 1) ∧
    (¬ (haystack start = 'a' ∧ haystack (start + 1) = 'b') → haystack start ≠ 'b' →
      get_match fuel start haystack (.cnc (.alt (.chr 'a') .null) (.chr 'b')) =
        some NO_MATCH) := by
  obtain ⟨n, rfl⟩ : ∃ n, fuel = n + 3 := ⟨fuel - 3, by omega⟩
  refine ⟨by decide, ?_, ?_, ?_⟩
  · intro ha hb
    simp [get_match, get_matcher, match_concatenation, concatenation_loop,
      concatenation_body, match_alternation, match_char_eq, match_null_eq, has_match,
      ha, hb, is_end, NUL]
  · intro hb
    simp [get_match, get_matcher, match_concatenation, concatenation_loop,
      concatenation_body, match_alternation, match_char_eq, match_null_eq, has_match,
      hb, is_end, NUL]
  · intro hab hb
    by_cases ha : haystack start = 'a'
    · have hb1 : ¬ haystack (start + 1) = 'b' := fun e => hab ⟨ha, e⟩
      have hb2 : ¬ 'b' = haystack (start + 1) := fun e => hb1 e.symm
      simp [get_match, get_matcher, match_concatenation, concatenation_loop,
        concatenation_body, match_alternation, match_char_eq, match_null_eq, has_match,
        ha, hb2, is_end, NUL, NO_MATCH]
    · have ha2 : ¬ 'a' = haystack start := fun e => ha e.symm
      have hb2 : ¬ 'b' = haystack start := fun e => hb e.symm
      simp [get_match, get_matcher, match_concatenation, concatenation_loop,
        concatenation_body, match_alternation, match_char_eq, match_null_eq, has_match,
        ha2, hb2, is_end, NUL, NO_MATCH]

/-- Witness of C10: `b` at offset 0 returns 1. -/
theorem empty_alternative_witness :
    cstr "b" 0 = 'b' ∧
    get_match 3 0 (cstr "b") (.cnc (.alt (.chr 'a') .null) (.chr 'b')) = some 1 :=
  ⟨by decide, (empty_alternative (cstr "b") 0 3 (le_refl _)).2.2.1 (by decide)⟩

/-! ## Claims about the parser on short patterns -/

/-- C5 (escaping), at the failing input. The escaped closing parenthesis (a backslash,
then `)`) does not compile to the literal `)` but to the NULL tree, which matches the
empty string: on the haystack `)` and on the haystack `x` alike `get_match` returns 0,
where the claim asks for 1 and for `NO_MATCH`. The escaped opening parenthesis starts a group and
also yields the NULL tree. The other special characters are taken literally when
escaped: a backslash followed by `.`, by `|`, by `*` or by a backslash compiles to
the literal node of that character. -/
theorem escaped_parenthesis :
    (compile 3 (cstr "\\)") = some .null ∧
      get_match 1 0 (cstr ")") .null = some 0 ∧
      get_match 1 0 (cstr "x") .null = some 0) ∧
    compile 4 (cstr "\\(") = some .null ∧
    (compile 3 (cstr "\\.") = some (.chr '.') ∧
      compile 3 (cstr "\\|") = some (.chr '|') ∧
      compile 3 (cstr "\\*") = some (.chr '*') ∧
      compile 3 (cstr "\\\\") = some (.chr '\\') ∧
      get_match 1 0 (cstr ".") (.chr '.') = some 1 ∧
      get_match 1 0 (cstr "x") (.chr '.') = some NO_MATCH) := by
  refine ⟨⟨by decide, by decide, by decide⟩, by decide, by decide, by decide, by decide,
    by decide, by decide, by decide⟩

/-- Escaping where it works: for every character `c` that is neither an end marker nor
a parenthesis, a pattern holding a backslash, then `c`, then an end marker compiles to
the literal `c`. -/
theorem escaped_literal (c : Char) (hc : is_end c = false) (h1 : c ≠ '(') (h2 : c ≠ ')')
    (pattern : Buffer) (hp0 : pattern 0 = '\\') (hp1 : pattern 1 = c)
    (hp2 : is_end (pattern 2) = true) (fuel : Nat) (hf : 3 ≤ fuel) :
    compile fuel pattern = some (.chr c) := by
  obtain ⟨n, rfl⟩ : ∃ n, fuel = n + 3 := ⟨fuel - 3, by omega⟩
  have hstar : ¬ pattern 2 = '*' := by
    intro e
    rw [e] at hp2
    exact absurd hp2 (by decide)
  have hb : is_end '\\' = false := by decide
  simp [compile, build_regex, hp0, hp1, hp2, hc, h1, h2, hstar, hb]

/-- Counterexample to C6 as stated: the one-character pattern `.` compiles to the
wildcard literal, which returns 1 on the haystack `x` although `x` differs from `.`.
The patterns `)`, `|`, `(` and the lone backslash compile to no literal either: the
first, third and fourth to the NULL tree and the second to an alternation of two NULL
operands, and these return 0 at every position. -/
theorem single_char_counterexample :
    (compile 2 (cstr ".") = some (.chr NUL) ∧ cstr "x" 0 ≠ '.' ∧
      get_match 1 0 (cstr "x") (.chr NUL) = some 1) ∧
    (compile 2 (cstr ")") = some .null ∧ get_match 1 0 (cstr ")") .null = some 0) ∧
    (compile 3 (cstr "|") = some (.alt .null .null) ∧
      get_match 1 0 (cstr "|") (.alt .null .null) = some 0) ∧
    compile 3 (cstr "(") = some .null ∧
    compile 2 (cstr "\\") = some .null := by
  refine ⟨⟨by decide, by decide, by decide⟩, ⟨by decide, by decide⟩,
    ⟨by decide, by decide⟩, by decide, by decide⟩

/-- C6 as amended. For every character `c` that is neither an end marker nor one of
`.`, `(`, `)`, `|` and the backslash, a pattern holding `c` and then an end marker
compiles to the literal `c`, and `get_match` on it returns 1 at every position of a
haystack that holds `c` and `NO_MATCH` at every position that holds another
character. -/
theorem single_char_amended (c : Char) (hc : is_end c = false) (h1 : c ≠ '.')
    (h2 : c ≠ '(') (h3 : c ≠ ')') (h4 : c ≠ '|') (h5 : c ≠ '\\')
    (pattern : Buffer) (hp0 : pattern 0 = c) (hp1 : is_end (pattern 1) = true)
    (haystack : Buffer) (p : Int) (fuel : Nat) (hf : 2 ≤ fuel) :
    compile fuel pattern = some (.chr c) ∧
    (haystack p = c → get_match fuel p haystack (.chr c) = some 1) ∧
    (haystack p ≠ c → get_match fuel p haystack (.chr c) = some NO_MATCH) := by
  obtain ⟨n, rfl⟩ : ∃ n, fuel = n + 2 := ⟨fuel - 2, by omega⟩
  have hstar : ¬ pattern 1 = '*' := by
    intro e
    rw [e] at hp1
    exact absurd hp1 (by decide)
  have hN : ¬ c = NUL := ((is_end_eq_false_iff c).1 hc).1
  refine ⟨?_, ?_, ?_⟩
  · simp [compile, build_regex, hp0, hp1, hc, h1, h2, h3, h4, h5, hstar]
  · intro hp
    rw [get_match, get_matcher_chr, hp]
    simp [hc]
  · intro hp
    have : ¬ c = haystack p := fun e => hp e.symm
    rw [get_match, get_matcher_chr]
    simp [hN, this, NO_MATCH]

/-- Witness of the amended C6: the pattern `a` on the haystack `xa` at position 1. -/
theorem single_char_amended_witness :
    compile 2 (cstr "a") = some (.chr 'a') ∧
    (cstr "xa" 1 = 'a' → get_match 2 1 (cstr "xa") (.chr 'a') = some 1) ∧
    (cstr "xa" 1 ≠ 'a' → get_match 2 1 (cstr "xa") (.chr 'a') = some NO_MATCH) :=
  single_char_amended 'a' (by decide) (by decide) (by decide) (by decide) (by decide)
    (by decide) (cstr "a") (by decide) (by decide) (cstr "xa") 1 2 (le_refl _)

/-! ## More fuel never changes an answer -/

theorem concatenation_body_extends {ma ma' mb mb' : matcher_def}
    (ha : Extends ma ma') (hb : Extends mb mb') {s : Int} {h : Buffer}
    {ml sl tryl : Int} {x : Int × Int × Bool}
    (hx : concatenation_body ma mb s h ml sl tryl = some x) :
    concatenation_body ma' mb' s h ml sl tryl = some x := by
  obtain ⟨sl1, tryl1, again⟩ := x
  obtain ⟨hf, hcase⟩ := concatenation_body_eq hx
  rcases hcase with ⟨ht, rfl, rfl⟩ | ⟨ht, hsec, rfl⟩
  · exact concatenation_body_break (ha _ _ _ _ hf) ht
  · exact concatenation_body_both (ha _ _ _ _ hf) ht (hb _ _ _ _ hsec)

theorem concatenation_loop_extends {ma ma' mb mb' : matcher_def}
    (ha : Extends ma ma') (hb : Extends mb mb') {s : Int} {h : Buffer} {ml : Int} :
    ∀ (n n' : Nat) (sl tryl : Int) (res : Int × Int), n ≤ n' →
      concatenation_loop ma mb s h ml n sl tryl = some res →
      concatenation_loop ma' mb' s h ml n' sl tryl = some res := by
  intro n
  induction n with
  | zero => intro n' sl tryl res _ hl; simp [concatenation_loop] at hl
  | succ n ih =>
    intro n' sl tryl res hn hl
    obtain ⟨k, rfl⟩ : ∃ k, n' = k + 1 := ⟨n' - 1, by omega⟩
    rw [concatenation_loop_succ] at hl ⊢
    cases hbody : concatenation_body ma mb s h ml sl tryl with
    | none => simp [hbody] at hl
    | some x =>
      rw [concatenation_body_extends ha hb hbody]
      obtain ⟨sl1, tryl1, again⟩ := x
      simp only [hbody] at hl ⊢
      cases again with
      | true =>
        simp only [if_true] at hl ⊢
        exact ih k sl1 tryl1 res (by omega) hl
      | false => exact hl

theorem kleene_loop_extends {ma ma' : matcher_def} (ha : Extends ma ma')
    {s : Int} {h : Buffer} {ml : Int} :
    ∀ (n n' : Nat) (tot v : Int), n ≤ n' →
      kleene_loop ma s h ml n tot = some v → kleene_loop ma' s h ml n' tot = some v := by
  intro n
  induction n with
  | zero => intro n' tot v _ hl; simp [kleene_loop] at hl
  | succ n ih =>
    intro n' tot v hn hl
    obtain ⟨k, rfl⟩ : ∃ k, n' = k + 1 := ⟨n' - 1, by omega⟩
    cases hin : ma (s + tot) h (ml - tot) with
    | none => simp [kleene_loop_succ, kleene_body, hin] at hl
    | some l =>
      have hin' := ha _ _ _ _ hin
      by_cases hl0 : l < 0
      · rw [kleene_loop_stop n hin hl0] at hl
        rw [kleene_loop_stop k hin' hl0]
        exact hl
      · have hm : has_match l = true := (has_match_iff l).2 (by omega)
        simp only [kleene_loop_succ, kleene_body, hin, hin', hm, if_true] at hl ⊢
        exact ih k _ v (by omega) hl

theorem get_matcher_mono (r : Regex) : ∀ (fuel fuel' : Nat), fuel ≤ fuel' →
    Extends (get_matcher fuel r) (get_matcher fuel' r) := by
  induction r with
  | null => intro fuel fuel' _ s h b v hv; exact hv
  | chr c => intro fuel fuel' _ s h b v hv; exact hv
  | cnc a c iha ihc =>
    intro fuel fuel' hf s h b v hv
    rw [get_matcher_cnc] at hv ⊢
    unfold match_concatenation at hv ⊢
    cases hl : concatenation_loop (get_matcher fuel a) (get_matcher fuel c) s h b fuel
        (-1) (b + 1) with
    | none => simp [hl] at hv
    | some res =>
      rw [concatenation_loop_extends (iha fuel fuel' hf) (ihc fuel fuel' hf) fuel fuel'
        (-1) (b + 1) res hf hl]
      simpa [hl] using hv
  | kls a iha =>
    intro fuel fuel' hf s h b v hv
    rw [get_matcher_kls] at hv ⊢
    unfold match_kleene at hv ⊢
    by_cases hb : b < 0
    · simpa [hb] using hv
    · simp only [hb, if_false] at hv ⊢
      exact kleene_loop_extends (iha fuel fuel' hf) fuel fuel' 0 v hf hv
  | alt a c iha ihc =>
    intro fuel fuel' hf s h b v hv
    rw [get_matcher_alt] at hv ⊢
    unfold match_alternation at hv ⊢
    cases h1 : get_matcher fuel a s h b with
    | none => simp [h1] at hv
    | some f =>
      cases h2 : get_matcher fuel c s h b with
      | none => simp [h1, h2] at hv
      | some g =>
        rw [iha fuel fuel' hf _ _ _ _ h1, ihc fuel fuel' hf _ _ _ _ h2]
        simpa [h1, h2] using hv

theorem get_matcher_unique {r : Regex} {fuel fuel' : Nat} {s : Int} {h : Buffer}
    {b v v' : Int} (h1 : get_matcher fuel r s h b = some v)
    (h2 : get_matcher fuel' r s h b = some v') : v = v' := by
  have e1 := get_matcher_mono r fuel (max fuel fuel') (le_max_left _ _) _ _ _ _ h1
  have e2 := get_matcher_mono r fuel' (max fuel fuel') (le_max_right _ _) _ _ _ _ h2
  rw [e1] at e2
  exact Option.some.inj e2

/-! ## A result that fits a smaller budget is found with that budget -/

theorem Stable_null (fuel : Nat) : Stable (get_matcher fuel .null) := by
  intro s h b b' v hbb hv hok
  rw [get_matcher_null] at hv ⊢
  simp only [Option.some.injEq] at hv
  by_cases hb' : b' < 0
  · have : b < 0 := by omega
    simp only [hb', if_true] at hv
    simp [this, hv]
  · simp only [hb', if_false] at hv
    subst hv
    have : ¬ b < 0 := by omega
    simp [this]

theorem Stable_chr (fuel : Nat) (c : Char) : Stable (get_matcher fuel (.chr c)) := by
  intro s h b b' v hbb hv hok
  rw [get_matcher_chr] at hv ⊢
  simp only [Option.some.injEq] at hv
  split at hv
  · rename_i hc
    subst hv
    have : 1 ≤ b := by omega
    simp [this, hc.2.1, hc.2.2]
  · rename_i hc
    subst hv
    have : ¬ (1 ≤ b ∧ is_end (h s) = false ∧ (c = NUL ∨ c = h s)) := by
      rintro ⟨h1, h2, h3⟩
      exact hc ⟨by omega, h2, h3⟩
    simp [this]

theorem Stable_alt {ma mc : matcher_def} (ha : Stable ma) (hc : Stable mc) :
    Stable (match_alternation ma mc) := by
  intro s h b b' v hbb hv hok
  unfold match_alternation at hv ⊢
  cases h1 : ma s h b' with
  | none => simp [h1] at hv
  | some f =>
    cases h2 : mc s h b' with
    | none => simp [h1, h2] at hv
    | some g =>
      simp only [h1, h2] at hv
      have hfg : (f < 0 ∨ f ≤ b) ∧ (g < 0 ∨ g ≤ b) := by
        split at hv <;> simp only [Option.some.injEq] at hv <;> subst hv <;>
          constructor <;> omega
      rw [ha s h b b' f hbb h1 hfg.1, hc s h b b' g hbb h2 hfg.2]
      exact hv

theorem kleene_loop_stable {ma : matcher_def} (ha : Stable ma) {s : Int} {h : Buffer}
    {b b' : Int} (hbb : b ≤ b') :
    ∀ (n : Nat) (tot v : Int), kleene_loop ma s h b' n tot = some v → v ≤ b →
      kleene_loop ma s h b n tot = some v := by
  intro n
  induction n with
  | zero => intro tot v hl; simp [kleene_loop] at hl
  | succ n ih =>
    intro tot v hl hvb
    have hge := kleene_loop_ge (n + 1) tot v hl
    cases hin : ma (s + tot) h (b' - tot) with
    | none => simp [kleene_loop_succ, kleene_body, hin] at hl
    | some l =>
      by_cases hl0 : l < 0
      · rw [kleene_loop_stop n hin hl0] at hl
        have hin2 := ha (s + tot) h (b - tot) (b' - tot) l (by omega) hin (Or.inl hl0)
        rw [kleene_loop_stop n hin2 hl0]
        exact hl
      · by_cases hl1 : 0 < l
        · rw [kleene_loop_more n hin hl1] at hl
          have hge2 := kleene_loop_ge n (tot + l) v hl
          have hin2 := ha (s + tot) h (b - tot) (b' - tot) l (by omega) hin
            (Or.inr (by omega))
          rw [kleene_loop_more n hin2 hl1]
          exact ih (tot + l) v hl hvb
        · have hz : l = 0 := by omega
          subst hz
          have hin2 := ha (s + tot) h (b - tot) (b' - tot) 0 (by omega) hin
            (Or.inr (by omega))
          have hm : has_match 0 = true := by decide
          simp only [kleene_loop_succ, kleene_body, hin, hin2, hm, if_true, gt_iff_lt,
            lt_self_iff_false, if_false] at hl ⊢
          exact ih tot v hl hvb

theorem Stable_kls {ma : matcher_def} (ha : Stable ma) (fuel : Nat) :
    Stable (match_kleene ma fuel) := by
  intro s h b b' v hbb hv hok
  unfold match_kleene at hv ⊢
  by_cases hb' : b' < 0
  · have : b < 0 := by omega
    simpa [hb', this] using hv
  · simp only [hb', if_false] at hv
    have hge := kleene_loop_ge fuel 0 v hv
    have hvb : v ≤ b := by omega
    have : ¬ b < 0 := by omega
    simp only [this, if_false]
    exact kleene_loop_stable ha hbb fuel 0 v hv hvb

/-- The loop of the concatenation run with budget `b'` and with the smaller budget `b`
from the same state: the same result, when the result fits into `b`. -/
theorem concatenation_loop_sync {ma mc : matcher_def} (hc : Stable mc) {s : Int}
    {h : Buffer} {b b' : Int} (hbb : b ≤ b') :
    ∀ (n : Nat) (sl tryl sl2 tryl2 : Int),
      concatenation_loop ma mc s h b' n sl tryl = some (sl2, tryl2) →
      (0 ≤ sl2 → 0 ≤ tryl2 → tryl2 + sl2 ≤ b) →
      concatenation_loop ma mc s h b n sl tryl = some (sl2, tryl2) := by
  intro n
  induction n with
  | zero => intro sl tryl sl2 tryl2 hl; simp [concatenation_loop] at hl
  | succ n ih =>
    intro sl tryl sl2 tryl2 hl hok
    rw [concatenation_loop_succ] at hl ⊢
    cases hbody : concatenation_body ma mc s h b' sl tryl with
    | none => simp [hbody] at hl
    | some x =>
      obtain ⟨sl1, tryl1, again⟩ := x
      simp only [hbody] at hl
      obtain ⟨hf, hcase⟩ := concatenation_body_eq hbody
      rcases hcase with ⟨ht, rfl, rfl⟩ | ⟨ht, hsec, rfl⟩
      · rw [concatenation_body_break hf ht]
        exact hl
      · by_cases hs : sl1 < 0
        · have hsec2 := hc (s + tryl1) h (b - tryl1) (b' - tryl1) sl1 (by omega) hsec
            (Or.inl hs)
          rw [concatenation_body_both hf ht hsec2]
          simp only [hs, decide_True, if_true] at hl ⊢
          exact ih sl1 tryl1 sl2 tryl2 hl hok
        · simp only [hs, decide_False, Bool.false_eq_true, if_false, Option.some.injEq,
            Prod.mk.injEq] at hl
          obtain ⟨rfl, rfl⟩ := hl
          have hsec2 := hc (s + tryl1) h (b - tryl1) (b' - tryl1) sl1 (by omega) hsec
            (Or.inr (by have := hok (by omega) ht; omega))
          rw [concatenation_body_both hf ht hsec2]
          simp [hs]

/-- The loop with budget `b'` at a state whose `tryl` is still above `b + 1`, against
the loop with the smaller budget `b` at its start. -/
theorem concatenation_loop_lead {c : Regex} {ma mc : matcher_def} (hsc : Spec c mc)
    (ha : Stable ma) (hc : Stable mc) {s : Int} {h : Buffer} {b b' : Int} (hbb : b ≤ b') :
    ∀ (n : Nat) (tryl sl2 tryl2 : Int), b + 1 ≤ tryl →
      concatenation_loop ma mc s h b' n (-1) tryl = some (sl2, tryl2) →
      (0 ≤ sl2 → 0 ≤ tryl2 → tryl2 + sl2 ≤ b) →
      concatenation_loop ma mc s h b n (-1) (b + 1) = some (sl2, tryl2) := by
  intro n
  induction n with
  | zero => intro tryl sl2 tryl2 _ hl; simp [concatenation_loop] at hl
  | succ n ih =>
    intro tryl sl2 tryl2 htl hl hok
    rw [concatenation_loop_succ] at hl
    cases hbody : concatenation_body ma mc s h b' (-1) tryl with
    | none => simp [hbody] at hl
    | some x =>
      obtain ⟨sl1, tryl1, again⟩ := x
      simp only [hbody] at hl
      obtain ⟨hf, hcase⟩ := concatenation_body_eq hbody
      rcases hcase with ⟨ht, rfl, rfl⟩ | ⟨ht, hsec, rfl⟩
      · simp only [Bool.false_eq_true, if_false, Option.some.injEq, Prod.mk.injEq] at hl
        obtain ⟨rfl, rfl⟩ := hl
        have hf2 : ma s h (b + 1 - 1) = some tryl1 :=
          ha s h (b + 1 - 1) (tryl - 1) tryl1 (by omega) hf (Or.inl ht)
        rw [concatenation_loop_succ, concatenation_body_break hf2 ht]
        simp
      · by_cases hs : sl1 < 0
        · have hs1 : sl1 = -1 := by
            rcases hsc _ _ _ _ hsec with e | ⟨e, _, _⟩
            · exact e
            · omega
          subst hs1
          simp only [hs, decide_True, if_true] at hl
          by_cases htb : tryl1 ≤ b
          · have hf2 : ma s h (b + 1 - 1) = some tryl1 :=
              ha s h (b + 1 - 1) (tryl - 1) tryl1 (by omega) hf (Or.inr (by omega))
            have hsec2 := hc (s + tryl1) h (b - tryl1) (b' - tryl1) (-1) (by omega) hsec
              (Or.inl hs)
            rw [concatenation_loop_succ, concatenation_body_both hf2 ht hsec2]
            simp only [hs, decide_True, if_true]
            exact concatenation_loop_sync hc hbb n (-1) tryl1 sl2 tryl2 hl hok
          · have := ih tryl1 sl2 tryl2 (by omega) hl hok
            exact concatenation_loop_extends (fun _ _ _ _ e => e) (fun _ _ _ _ e => e)
              n (n + 1) (-1) (b + 1) (sl2, tryl2) (by omega) this
        · simp only [hs, decide_False, Bool.false_eq_true, if_false, Option.some.injEq,
            Prod.mk.injEq] at hl
          obtain ⟨rfl, rfl⟩ := hl
          have hfit := hok (by omega) ht
          have hf2 : ma s h (b + 1 - 1) = some tryl1 :=
            ha s h (b + 1 - 1) (tryl - 1) tryl1 (by omega) hf (Or.inr (by omega))
          have hsec2 := hc (s + tryl1) h (b - tryl1) (b' - tryl1) sl1 (by omega) hsec
            (Or.inr (by omega))
          rw [concatenation_loop_succ, concatenation_body_both hf2 ht hsec2]
          simp [hs]

theorem Stable_cnc {c : Regex} {ma mc : matcher_def} (hsc : Spec c mc)
    (ha : Stable ma) (hc : Stable mc) (fuel : Nat) :
    Stable (match_concatenation ma mc fuel) := by
  intro s h b b' v hbb hv hok
  unfold match_concatenation at hv ⊢
  cases hl : concatenation_loop ma mc s h b' fuel (-1) (b' + 1) with
  | none => simp [hl] at hv
  | some res =>
    obtain ⟨sl2, tryl2⟩ := res
    simp only [hl] at hv
    have hfit : 0 ≤ sl2 → 0 ≤ tryl2 → tryl2 + sl2 ≤ b := by
      intro h0 h1
      have hm : has_match sl2 = true := (has_match_iff sl2).2 h0
      simp only [hm, Bool.not_true, Bool.false_eq_true, if_false, Option.some.injEq] at hv
      omega
    rw [concatenation_loop_lead hsc ha hc hbb fuel (b' + 1) sl2 tryl2 (by omega) hl hfit]
    exact hv

theorem get_matcher_stable (fuel : Nat) (r : Regex) : Stable (get_matcher fuel r) := by
  induction r with
  | null => exact Stable_null fuel
  | chr c => exact Stable_chr fuel c
  | cnc a c iha ihc => exact Stable_cnc (get_matcher_spec fuel c) iha ihc fuel
  | kls a iha => exact Stable_kls iha fuel
  | alt a c iha ihc => exact Stable_alt iha ihc

/-- The answers with two budgets `b ≤ b'`, whatever the fuel of each run: the answer
with `b` is at most the answer with `b'`, and they are equal when the answer with
`b'` fits into `b` or is a failure. -/
theorem get_matcher_budget {r : Regex} {fuel fuel' : Nat} {s : Int} {h : Buffer}
    {b b' v v' : Int} (hbb : b ≤ b') (h1 : get_matcher fuel r s h b = some v)
    (h2 : get_matcher fuel' r s h b' = some v') :
    v ≤ v' ∧ ((v' < 0 ∨ v' ≤ b) → v = v') := by
  have hst : (v' < 0 ∨ v' ≤ b) → v = v' := by
    intro hok
    have e := get_matcher_stable fuel' r s h b b' v' hbb h2 hok
    exact get_matcher_unique h1 e
  refine ⟨?_, hst⟩
  by_cases hok : v' < 0 ∨ v' ≤ b
  · exact le_of_eq (hst hok)
  · rcases get_matcher_spec fuel r s h b v h1 with e | ⟨_, e, _⟩ <;> omega

/-! ## An expression that can match the empty string never fails -/

theorem get_matcher_nullable (r : Regex) (hr : nullable r = true) :
    ∀ (fuel : Nat) (s : Int) (h : Buffer) (b v : Int), 0 ≤ b →
      get_matcher fuel r s h b = some v → 0 ≤ v := by
  induction r with
  | null =>
    intro fuel s h b v hb hv
    have : ¬ b < 0 := by omega
    simp only [get_matcher_null, this, if_false, Option.some.injEq] at hv
    omega
  | chr c => simp [nullable] at hr
  | cnc a c iha ihc =>
    intro fuel s h b v hb hv
    simp only [nullable, Bool.and_eq_true] at hr
    rw [get_matcher_cnc] at hv
    unfold match_concatenation at hv
    cases fuel with
    | zero => simp [concatenation_loop] at hv
    | succ n =>
      rw [concatenation_loop_succ] at hv
      cases hbody : concatenation_body (get_matcher (n + 1) a) (get_matcher (n + 1) c)
          s h b (-1) (b + 1) with
      | none => simp [hbody] at hv
      | some x =>
        obtain ⟨sl1, tryl1, again⟩ := x
        simp only [hbody] at hv
        obtain ⟨hf, hcase⟩ := concatenation_body_eq hbody
        have ht := iha hr.1 (n + 1) s h (b + 1 - 1) tryl1 (by omega) hf
        rcases hcase with ⟨ht2, _, _⟩ | ⟨_, hsec, rfl⟩
        · omega
        · have hle : tryl1 ≤ b := by
            rcases get_matcher_spec (n + 1) a s h (b + 1 - 1) tryl1 hf with e | ⟨_, e, _⟩
              <;> omega
          have hs := ihc hr.2 (n + 1) (s + tryl1) h (b - tryl1) sl1 (by omega) hsec
          have hs2 : ¬ sl1 < 0 := by omega
          have hm : has_match sl1 = true := (has_match_iff sl1).2 hs
          simp only [hs2, decide_False, Bool.false_eq_true, if_false, hm, Bool.not_true,
            Option.some.injEq] at hv
          omega
  | kls a _ =>
    intro fuel s h b v hb hv
    rw [get_matcher_kls] at hv
    unfold match_kleene at hv
    have : ¬ b < 0 := by omega
    simp only [this, if_false] at hv
    exact kleene_loop_ge fuel 0 v hv
  | alt a c iha ihc =>
    intro fuel s h b v hb hv
    simp only [nullable, Bool.or_eq_true] at hr
    rw [get_matcher_alt] at hv
    unfold match_alternation at hv
    cases h1 : get_matcher fuel a s h b with
    | none => simp [h1] at hv
    | some f =>
      cases h2 : get_matcher fuel c s h b with
      | none => simp [h1, h2] at hv
      | some g =>
        simp only [h1, h2] at hv
        have hfg : 0 ≤ f ∨ 0 ≤ g := by
          rcases hr with hr | hr
          · exact Or.inl (iha hr fuel s h b f hb h1)
          · exact Or.inr (ihc hr fuel s h b g hb h2)
        split at hv <;> simp only [Option.some.injEq] at hv <;> omega

theorem kleene_loop_never {a : Regex} (fuel : Nat) (s : Int) (h : Buffer) (ml : Int)
    (hnf : ∀ (s1 b v : Int), 0 ≤ b → get_matcher fuel a s1 h b = some v → 0 ≤ v) :
    ∀ (n : Nat) (tot : Int), 0 ≤ tot → tot ≤ ml →
      kleene_loop (get_matcher fuel a) s h ml n tot = none := by
  intro n
  induction n with
  | zero => intro tot _ _; rfl
  | succ n ih =>
    intro tot h0 hle
    cases hin : get_matcher fuel a (s + tot) h (ml - tot) with
    | none => simp [kleene_loop_succ, kleene_body, hin]
    | some l =>
      have hl := hnf _ _ _ (by omega) hin
      have hm : has_match l = true := (has_match_iff l).2 hl
      have hle2 : l ≤ ml - tot := by
        rcases get_matcher_spec fuel a _ _ _ _ hin with e | ⟨_, e, _⟩ <;> omega
      simp only [kleene_loop_succ, kleene_body, hin, hm, if_true]
      split
      · exact ih _ (by omega) (by omega)
      · exact ih _ h0 hle

/-! ## The concatenation loop against the search over all left budgets -/

theorem reference_search_succ (ma mc : matcher_def) (s : Int) (h : Buffer) (ml : Int)
    (k : Nat) (x : Int) :
    reference_search ma mc s h ml (k + 1) x =
      match ma s h x with
      | none => none
      | some t =>
        if 0 ≤ t then
          match mc (s + t) h (ml - t) with
          | none => none
          | some u =>
            if 0 ≤ u then some (t + u) else reference_search ma mc s h ml k (x - 1)
        else reference_search ma mc s h ml k (x - 1) := rfl

theorem reference_search_skip {ma mc : matcher_def} {s : Int} {h : Buffer} {ml : Int} :
    ∀ (d : Nat) (x : Int), (d : Int) ≤ x + 1 →
      (∀ y : Int, x - d < y → y ≤ x → Fails ma mc s h ml y) →
      reference_search ma mc s h ml (x + 1).toNat x =
        reference_search ma mc s h ml (x + 1 - d).toNat (x - d) := by
  intro d
  induction d with
  | zero => intro x _ _; simp
  | succ d ih =>
    intro x hd hfail
    have hx : (x + 1).toNat = x.toNat + 1 := by omega
    obtain ⟨t, ht, hcase⟩ := hfail x (by push_cast; omega) (le_refl _)
    have hstep : reference_search ma mc s h ml (x + 1).toNat x =
        reference_search ma mc s h ml x.toNat (x - 1) := by
      rw [hx, reference_search_succ, ht]
      rcases hcase with hneg | ⟨u, hu, huneg⟩
      · have : ¬ 0 ≤ t := by omega
        simp [this]
      · by_cases h0 : 0 ≤ t
        · have : ¬ 0 ≤ u := by omega
          simp [h0, hu, this]
        · simp [h0]
    have hih := ih (x - 1) (by push_cast at hd; omega)
      (fun y hy1 hy2 => hfail y (by push_cast; omega) (by omega))
    rw [hstep]
    rw [show x - 1 + 1 = x by ring] at hih
    rw [hih]
    congr 1
    · push_cast; omega
    · push_cast; ring

theorem concatenation_loop_reference {a : Regex} {ma mc : matcher_def}
    (hsa : Spec a ma) (hta : Stable ma) {s : Int} {h : Buffer} {ml : Int} :
    ∀ (n : Nat) (sl tryl sl2 tryl2 : Int), sl < 0 →
      concatenation_loop ma mc s h ml n sl tryl = some (sl2, tryl2) →
      reference_search ma mc s h ml tryl.toNat (tryl - 1) =
        some (if sl2 < 0 then -1 else tryl2 + sl2) := by
  intro n
  induction n with
  | zero => intro sl tryl sl2 tryl2 _ hl; simp [concatenation_loop] at hl
  | succ n ih =>
    intro sl tryl sl2 tryl2 hsl hl
    rw [concatenation_loop_succ] at hl
    cases hbody : concatenation_body ma mc s h ml sl tryl with
    | none => simp [hbody] at hl
    | some x =>
      obtain ⟨sl1, tryl1, again⟩ := x
      simp only [hbody] at hl
      obtain ⟨hf, hcase⟩ := concatenation_body_eq hbody
      have hcount : tryl.toNat = (tryl - 1 + 1).toNat := by rw [sub_add_cancel]
      rcases hcase with ⟨ht, rfl, rfl⟩ | ⟨ht, hsec, rfl⟩
      · simp only [Bool.false_eq_true, if_false, Option.some.injEq, Prod.mk.injEq] at hl
        obtain ⟨rfl, rfl⟩ := hl
        simp only [hsl, if_true]
        by_cases hpos : tryl ≤ 0
        · have hz : tryl.toNat = 0 := by omega
          rw [hz]
          rfl
        · have := @reference_search_skip ma mc s h ml (tryl - 1 + 1).toNat (tryl - 1)
            (by omega)
            (fun y _ hy2 =>
              ⟨tryl1, hta s h y (tryl - 1) tryl1 hy2 hf (Or.inl ht), Or.inl ht⟩)
          rw [hcount, this]
          have hz : (tryl - 1 + 1 - ((tryl - 1 + 1).toNat : Int)).toNat = 0 := by omega
          rw [hz]
          rfl
      · have hle : tryl1 ≤ tryl - 1 := by
          rcases hsa s h (tryl - 1) tryl1 hf with e | ⟨_, e, _⟩ <;> omega
        by_cases hs : sl1 < 0
        · simp only [hs, decide_True, if_true] at hl
          have hih := ih sl1 tryl1 sl2 tryl2 hs hl
          have := @reference_search_skip ma mc s h ml (tryl - tryl1).toNat (tryl - 1)
            (by omega)
            (fun y hy1 hy2 => ⟨tryl1,
              hta s h y (tryl - 1) tryl1 hy2 hf (Or.inr (by omega)),
              Or.inr ⟨sl1, hsec, hs⟩⟩)
          rw [hcount, this, ← hih]
          congr 1
          · omega
          · omega
        · simp only [hs, decide_False, Bool.false_eq_true, if_false, Option.some.injEq,
            Prod.mk.injEq] at hl
          obtain ⟨rfl, rfl⟩ := hl
          have hk : tryl.toNat = (tryl.toNat - 1) + 1 := by omega
          have h0 : 0 ≤ sl1 := by omega
          rw [hk, reference_search_succ, hf]
          simp [ht, hsec, h0, hs]

theorem match_concatenation_reference {a : Regex} {ma mc : matcher_def}
    (hsa : Spec a ma) (hta : Stable ma) {fuel : Nat} {s : Int} {h : Buffer} {ml v : Int}
    (hv : match_concatenation ma mc fuel s h ml = some v) :
    reference_concatenation ma mc s h ml = some v := by
  unfold match_concatenation at hv
  cases hl : concatenation_loop ma mc s h ml fuel (-1) (ml + 1) with
  | none => simp [hl] at hv
  | some res =>
    obtain ⟨sl2, tryl2⟩ := res
    simp only [hl] at hv
    have := concatenation_loop_reference hsa hta fuel (-1) (ml + 1) sl2 tryl2 (by omega) hl
    rw [add_sub_cancel_right] at this
    rw [reference_concatenation, this]
    by_cases hs : sl2 < 0
    · have hm : has_match sl2 = false := (has_match_false_iff sl2).2 hs
      simpa [hm, hs] using hv
    · have hm : has_match sl2 = true := (has_match_iff sl2).2 (by omega)
      simpa [hm, hs] using hv

/-! ## Claims about budgets, alternation and the star over a nullable expression -/

/-- C11 (wildcard). The pattern `.` compiles to the wildcard literal, and for every
haystack and offset `get_match` on it returns 1 when the character at the offset is no
end marker, whatever it is, and `NO_MATCH` when the offset is at an end marker. -/
theorem wildcard_matches_any (haystack : Buffer) (p : Int) (fuel : Nat) :
    compile 2 (cstr ".") = some (.chr NUL) ∧
    (is_end (haystack p) = false → get_match fuel p haystack (.chr NUL) = some 1) ∧
    (is_end (haystack p) = true →
      get_match fuel p haystack (.chr NUL) = some NO_MATCH) := by
  refine ⟨by decide, ?_, ?_⟩
  · intro he
    rw [get_match, get_matcher_chr]
    simp [he]
  · intro he
    rw [get_match, get_matcher_chr]
    simp [he, NO_MATCH]

/-- C12 (alternation returns the longer operand result). When both operands return,
`f` and `g` say, the alternation returns the larger of the two, `NO_MATCH` being `-1`;
this is `NO_MATCH` exactly when both operands fail; and the alternation with the
operands exchanged returns the same value. -/
theorem alternation_longer (a c : Regex) (haystack : Buffer) (start budget : Int)
    (fuel : Nat) (f g : Int)
    (hf : get_matcher fuel a start haystack budget = some f)
    (hg : get_matcher fuel c start haystack budget = some g) :
    get_matcher fuel (.alt a c) start haystack budget = some (max f g) ∧
    (max f g = NO_MATCH ↔ f = NO_MATCH ∧ g = NO_MATCH) ∧
    get_matcher fuel (.alt c a) start haystack budget =
      get_matcher fuel (.alt a c) start haystack budget := by
  have hfr : f = -1 ∨ 0 ≤ f := by
    rcases get_matcher_spec fuel a _ _ _ _ hf with e | ⟨e, _, _⟩
    · exact Or.inl e
    · exact Or.inr e
  have hgr : g = -1 ∨ 0 ≤ g := by
    rcases get_matcher_spec fuel c _ _ _ _ hg with e | ⟨e, _, _⟩
    · exact Or.inl e
    · exact Or.inr e
  have h1 : get_matcher fuel (.alt a c) start haystack budget = some (max f g) := by
    rw [get_matcher_alt]
    simp only [match_alternation, hf, hg]
    split
    · rw [max_eq_left (by omega)]
    · rw [max_eq_right (by omega)]
  have h2 : get_matcher fuel (.alt c a) start haystack budget = some (max f g) := by
    rw [get_matcher_alt]
    simp only [match_alternation, hf, hg]
    split
    · rw [max_eq_right (by omega)]
    · rw [max_eq_left (by omega)]
  refine ⟨h1, ?_, by rw [h1, h2]⟩
  simp only [NO_MATCH]
  constructor
  · intro hm
    have h3 := le_max_left f g
    have h4 := le_max_right f g
    constructor <;> omega
  · rintro ⟨rfl, rfl⟩
    rfl

/-- Witness of C12: the alternation of `a` and the NULL node on the haystack `a`. -/
theorem alternation_longer_witness :
    get_matcher 1 (.alt (.chr 'a') .null) 0 (cstr "a") 5 = some (max 1 0) ∧
    (max (1 : Int) 0 = NO_MATCH ↔ (1 : Int) = NO_MATCH ∧ (0 : Int) = NO_MATCH) ∧
    get_matcher 1 (.alt .null (.chr 'a')) 0 (cstr "a") 5 =
      get_matcher 1 (.alt (.chr 'a') .null) 0 (cstr "a") 5 :=
  alternation_longer (.chr 'a') .null (cstr "a") 0 5 1 1 0 (by decide) (by decide)

/-- C13 (the budget ceiling does not change results). For a tree with no star over an
expression that can match the empty string, and a start offset with `k ≤ 65535`
characters that are no end marker up to an end marker, the matcher run with any budget
`b ≥ k` returns the value that `get_match` returns with its budget 65535; every run
with budget `b` that returns, whatever its fuel, returns that value. -/
theorem budget_ceiling (r : Regex) (hr : NoNullStar r = true) (haystack : Buffer)
    (start k : Int) (hk0 : 0 ≤ k) (hk : k ≤ 65535)
    (_hrun : ∀ j : Int, 0 ≤ j → j < k → is_end (haystack (start + j)) = false)
    (hend : is_end (haystack (start + k)) = true) (b : Int) (hb : k ≤ b) :
    ∃ v : Int,
      (∃ fuel : Nat, get_matcher fuel r start haystack b = some v ∧
        get_match fuel start haystack r = some v) ∧
      (∀ (fuel : Nat) (w : Int), get_matcher fuel r start haystack b = some w → w = v) ∧
      (∀ (fuel : Nat) (w : Int), get_match fuel start haystack r = some w → w = v) := by
  obtain ⟨v, hv⟩ := get_matcher_answers r hr ((max b 65535 + 2).toNat) (max b 65535)
    (by omega) (by omega) start haystack (max b 65535) (le_refl _)
  have hvk : v < 0 ∨ v ≤ k := by
    rcases get_matcher_spec _ r _ _ _ _ hv with e | ⟨h0, _, hg⟩
    · omega
    · right
      by_contra hcon
      have := hg.1 k hk0 (by omega)
      rw [hend] at this
      exact absurd this (by decide)
  have h1 := get_matcher_stable _ r start haystack b (max b 65535) v (le_max_left _ _) hv
    (by omega)
  have h2 := get_matcher_stable _ r start haystack 65535 (max b 65535) v
    (le_max_right _ _) hv (by omega)
  exact ⟨v, ⟨_, h1, h2⟩, fun fuel w hw => get_matcher_unique hw h1,
    fun fuel w hw => get_matcher_unique hw h2⟩

/-- Witness of C13: the tree of `a*a` on the haystack `aaa` with budget 3. -/
theorem budget_ceiling_witness :
    NoNullStar (.cnc (.kls (.chr 'a')) (.chr 'a')) = true ∧
    ∃ v : Int,
      (∃ fuel : Nat,
        get_matcher fuel (.cnc (.kls (.chr 'a')) (.chr 'a')) 0 (cstr "aaa") 3 = some v ∧
        get_match fuel 0 (cstr "aaa") (.cnc (.kls (.chr 'a')) (.chr 'a')) = some v) ∧
      (∀ (fuel : Nat) (w : Int),
        get_matcher fuel (.cnc (.kls (.chr 'a')) (.chr 'a')) 0 (cstr "aaa") 3 = some w →
        w = v) ∧
      (∀ (fuel : Nat) (w : Int),
        get_match fuel 0 (cstr "aaa") (.cnc (.kls (.chr 'a')) (.chr 'a')) = some w →
        w = v) :=
  ⟨by decide,
    budget_ceiling (.cnc (.kls (.chr 'a')) (.chr 'a')) (by decide) (cstr "aaa") 0 3
      (by decide) (by decide)
      (by
        intro j hj0 hj
        have : j = 0 ∨ j = 1 ∨ j = 2 := by omega
        rcases this with rfl | rfl | rfl <;> decide)
      (by decide) 3 (le_refl _)⟩

/-- C14 (budget monotonicity). For a tree with no star over an expression that can
match the empty string and budgets `b ≤ b'`, the matcher returns with both budgets, and
whatever the fuel of the two runs the value with `b` is at most the value with `b'`
(`NO_MATCH` being `-1`); in particular a failure with `b'` is a failure with `b`. -/
theorem budget_monotone (r : Regex) (hr : NoNullStar r = true) (haystack : Buffer)
    (start b b' : Int) (hbb : b ≤ b') :
    (∃ (fuel : Nat) (v v' : Int), get_matcher fuel r start haystack b = some v ∧
      get_matcher fuel r start haystack b' = some v' ∧ v ≤ v') ∧
    (∀ (fuel fuel' : Nat) (v v' : Int), get_matcher fuel r start haystack b = some v →
      get_matcher fuel' r start haystack b' = some v' →
      v ≤ v' ∧ (v' = NO_MATCH → v = NO_MATCH)) := by
  have hall : ∀ (fuel fuel' : Nat) (v v' : Int),
      get_matcher fuel r start haystack b = some v →
      get_matcher fuel' r start haystack b' = some v' →
      v ≤ v' ∧ (v' = NO_MATCH → v = NO_MATCH) := by
    intro fuel fuel' v v' h1 h2
    have hb := get_matcher_budget hbb h1 h2
    refine ⟨hb.1, ?_⟩
    intro e
    simp only [NO_MATCH] at e ⊢
    have := hb.2 (Or.inl (by omega))
    omega
  refine ⟨?_, hall⟩
  obtain ⟨v', hv'⟩ := get_matcher_answers r hr ((b' + 2).toNat + 1) b' (by omega)
    (by push_cast; omega) start haystack b' (le_refl _)
  obtain ⟨v, hv⟩ := get_matcher_answers r hr ((b' + 2).toNat + 1) b' (by omega)
    (by push_cast; omega) start haystack b hbb
  exact ⟨_, v, v', hv, hv', (hall _ _ v v' hv hv').1⟩

/-- Witness of C14: the tree of `a*a` on the haystack `aaa` with budgets 2 and 3. -/
theorem budget_monotone_witness :
    NoNullStar (.cnc (.kls (.chr 'a')) (.chr 'a')) = true ∧ (2 : Int) ≤ 3 ∧
    ∃ (fuel : Nat) (v v' : Int),
      get_matcher fuel (.cnc (.kls (.chr 'a')) (.chr 'a')) 0 (cstr "aaa") 2 = some v ∧
      get_matcher fuel (.cnc (.kls (.chr 'a')) (.chr 'a')) 0 (cstr "aaa") 3 = some v' ∧
      v ≤ v' :=
  ⟨by decide, by decide,
    (budget_monotone (.cnc (.kls (.chr 'a')) (.chr 'a')) (by decide) (cstr "aaa") 0 2 3
      (by decide)).1⟩

/-- C15 (the backtracking of the concatenation equals the search over all budgets).
For a concatenation whose operands contain no star over an expression that can match
the empty string: whenever `match_concatenation` returns a value, the reference search,
which runs the left operand with the budgets `b`, `b - 1`, ..., `0` in that order and
stops at the first one for which both operands match, returns the same value; and with
`b + 2` passes allowed both do return. -/
theorem concatenation_reference (a c : Regex) (ha : NoNullStar a = true)
    (hc : NoNullStar c = true) (haystack : Buffer) (start b : Int) :
    (∀ (fuel : Nat) (v : Int), get_matcher fuel (.cnc a c) start haystack b = some v →
      reference_concatenation (get_matcher fuel a) (get_matcher fuel c) start haystack b =
        some v) ∧
    (∀ fuel : Nat, 1 ≤ fuel → b + 2 ≤ fuel →
      ∃ v, get_matcher fuel (.cnc a c) start haystack b = some v ∧
        reference_concatenation (get_matcher fuel a) (get_matcher fuel c) start haystack b =
          some v) := by
  have h1 : ∀ (fuel : Nat) (v : Int),
      get_matcher fuel (.cnc a c) start haystack b = some v →
      reference_concatenation (get_matcher fuel a) (get_matcher fuel c) start haystack b =
        some v := by
    intro fuel v hv
    rw [get_matcher_cnc] at hv
    exact match_concatenation_reference (get_matcher_spec fuel a)
      (get_matcher_stable fuel a) hv
  refine ⟨h1, ?_⟩
  intro fuel hf1 hfb
  have hr : NoNullStar (.cnc a c) = true := by simp [NoNullStar, ha, hc]
  obtain ⟨v, hv⟩ := get_matcher_answers (.cnc a c) hr fuel b hf1 hfb start haystack b
    (le_refl _)
  exact ⟨v, hv, h1 fuel v hv⟩

/-- Witness of C15: the tree of `a*a`, star of `a` then `a`, on the haystack `aaa`. -/
theorem concatenation_reference_witness :
    NoNullStar (.kls (.chr 'a')) = true ∧ NoNullStar (.chr 'a') = true ∧
    ∃ v, get_matcher 7 (.cnc (.kls (.chr 'a')) (.chr 'a')) 0 (cstr "aaa") 5 = some v ∧
      reference_concatenation (get_matcher 7 (.kls (.chr 'a'))) (get_matcher 7 (.chr 'a'))
        0 (cstr "aaa") 5 = some v :=
  ⟨by decide, by decide,
    (concatenation_reference (.kls (.chr 'a')) (.chr 'a') (by decide) (by decide)
      (cstr "aaa") 0 5).2 7 (by decide) (by decide)⟩

/-- C16 (a star over a nullable expression never returns). When the inner expression
can match the empty string (it is the NULL node, an alternation with such a branch,
and so on), or in any other way never fails when its budget is not negative, the
matcher of the star returns with no amount of fuel, for every haystack, start offset
and budget `b ≥ 0`. The patterns `()*` and `(a|)*` compile to such trees. -/
theorem star_of_nullable_never_returns (a : Regex) (haystack : Buffer)
    (ha : nullable a = true ∨ ∀ (fuel : Nat) (s b v : Int), 0 ≤ b →
      get_matcher fuel a s haystack b = some v → 0 ≤ v)
    (start b : Int) (hb : 0 ≤ b) (fuel : Nat) :
    get_matcher fuel (.kls a) start haystack b = none ∧
    compile 4 (cstr "()*") = some (.kls .null) ∧
    compile 6 (cstr "(a|)*") = some (.kls (.alt (.chr 'a') .null)) := by
  refine ⟨?_, by decide, by decide⟩
  have hnf : ∀ (s1 b1 v : Int), 0 ≤ b1 →
      get_matcher fuel a s1 haystack b1 = some v → 0 ≤ v := by
    rcases ha with ha | ha
    · exact fun s1 b1 v h0 hv => get_matcher_nullable a ha fuel s1 haystack b1 v h0 hv
    · exact fun s1 b1 v h0 hv => ha fuel s1 b1 v h0 hv
  rw [get_matcher_kls]
  have : ¬ b < 0 := by omega
  simp only [match_kleene, this, if_false]
  exact kleene_loop_never fuel start haystack b hnf fuel 0 (le_refl _) hb

/-- Witness of C16: the tree of `(a|)*` on the haystack `aab` with budget 65535. -/
theorem star_of_nullable_never_returns_witness :
    nullable (.alt (.chr 'a') .null) = true ∧ (0 : Int) ≤ 65535 ∧
    get_matcher 1000 (.kls (.alt (.chr 'a') .null)) 0 (cstr "aab") 65535 = none :=
  ⟨by decide, by decide,
    (star_of_nullable_never_returns (.alt (.chr 'a') .null) (cstr "aab")
      (Or.inl (by decide)) 0 65535 (by decide) 1000).1⟩

/-! ## One step of the parser -/

theorem slice_succ (h : Buffer) (s : Int) (n : Nat) :
    slice h s (n + 1) = h s :: slice h (s + 1) n := by
  rw [Nat.add_comm, slice_add, slice_one]
  simp

theorem build_regex_stop (fuel : Nat) (last : Regex) (pat : Buffer) (i : Int)
    (hstop : is_end (pat i) = true ∨ pat i = ')') :
    build_regex (fuel + 1) last pat i false = some (last, i) := by
  rcases hstop with he | hp
  · simp [build_regex, he]
  · have he : is_end (pat i) = false := by rw [hp]; decide
    have h1 : ¬ (')' = '.') := by decide
    have h2 : ¬ (')' = '\\') := by decide
    have h3 : ¬ (')' = '|') := by decide
    simp [build_regex, he, hp, h1, h2, h3]

theorem build_regex_char (fuel : Nat) (last : Regex) (pat : Buffer) (i : Int)
    (he : is_end (pat i) = false) (h1 : pat i ≠ '(') (h2 : pat i ≠ ')')
    (h3 : pat i ≠ '|') (h4 : pat i ≠ '\\') :
    build_regex (fuel + 1) last pat i false =
      if pat (i + 1) = '*' then
        build_regex fuel (concat_onto last (.kls (atom_of (pat i)))) pat (i + 2) false
      else build_regex fuel (concat_onto last (atom_of (pat i))) pat (i + 1) false := by
  have hN1 : ¬ (NUL = '\\') := by decide
  have hN2 : ¬ (NUL = '|') := by decide
  have hN3 : ¬ (NUL = ')') := by decide
  have hN4 : ¬ (NUL = '(') := by decide
  have hdot : is_end '.' = false := by decide
  by_cases hd : pat i = '.'
  · by_cases hs : pat (i + 1) = '*'
    · cases last <;>
        simp [build_regex, hdot, hd, hs, hN1, hN2, hN3, hN4, concat_onto, atom_of]
    · cases last <;>
        simp [build_regex, hdot, hd, hs, hN1, hN2, hN3, hN4, concat_onto, atom_of]
  · by_cases hs : pat (i + 1) = '*'
    · cases last <;>
        simp [build_regex, he, hd, hs, h1, h2, h3, h4, concat_onto, atom_of]
    · cases last <;>
        simp [build_regex, he, hd, hs, h1, h2, h3, h4, concat_onto, atom_of]

theorem build_regex_bar (fuel : Nat) (last : Regex) (pat : Buffer) (i : Int)
    (hp : pat i = '|') :
    build_regex (fuel + 1) last pat i false =
      match build_regex fuel .null pat (i + 1) false with
      | none => none
      | some (right, i1) => build_regex fuel (.alt last right) pat i1 false := by
  have he : is_end '|' = false := by decide
  have h1 : ¬ ('|' = '.') := by decide
  have h2 : ¬ ('|' = '\\') := by decide
  simp [build_regex, he, hp, h1, h2]

theorem build_regex_group (fuel : Nat) (last : Regex) (pat : Buffer) (i : Int)
    (hp : pat i = '(') :
    build_regex (fuel + 1) last pat i false =
      match build_regex fuel .null pat (i + 1) false with
      | none => none
      | some (out, i2) =>
        if pat (i2 + 1) = '*' then
          build_regex fuel (concat_onto last (.kls out)) pat (i2 + 2) false
        else build_regex fuel (concat_onto last out) pat (i2 + 1) false := by
  have he : is_end '(' = false := by decide
  have h1 : ¬ ('(' = '.') := by decide
  have h2 : ¬ ('(' = '\\') := by decide
  have h3 : ¬ ('(' = '|') := by decide
  have h4 : ¬ ('(' = ')') := by decide
  cases hb : build_regex fuel .null pat (i + 1) false with
  | none => simp [build_regex, he, hp, h1, h2, h3, h4, hb]
  | some x =>
    obtain ⟨out, i2⟩ := x
    by_cases hs : pat (i2 + 1) = '*'
    · cases last <;> simp [build_regex, he, hp, h1, h2, h3, h4, hb, hs, concat_onto]
    · cases last <;> simp [build_regex, he, hp, h1, h2, h3, h4, hb, hs, concat_onto]

/-! ## Patterns without parentheses and backslashes -/

theorem parse_flat_bar (last : Regex) (q : List Char) :
    parse_flat last ('|' :: q) = .alt last (parse_flat .null q) := by
  cases q with
  | nil => simp [parse_flat]
  | cons d rest => simp [parse_flat]

theorem parse_flat_single (last : Regex) (c : Char) (hc : c ≠ '|') :
    parse_flat last [c] = concat_onto last (atom_of c) := by
  simp [parse_flat, hc]

theorem parse_flat_star (last : Regex) (c : Char) (rest : List Char) (hc : c ≠ '|') :
    parse_flat last (c :: '*' :: rest) =
      parse_flat (concat_onto last (.kls (atom_of c))) rest := by
  simp [parse_flat, hc]

theorem parse_flat_next (last : Regex) (c d : Char) (rest : List Char) (hc : c ≠ '|')
    (hd : d ≠ '*') :
    parse_flat last (c :: d :: rest) =
      parse_flat (concat_onto last (atom_of c)) (d :: rest) := by
  simp [parse_flat, hc, hd]

theorem slice_cons {pat : Buffer} {i : Int} {c : Char} {q : List Char}
    (hs : slice pat i (c :: q).length = c :: q) :
    pat i = c ∧ slice pat (i + 1) q.length = q := by
  rw [List.length_cons, slice_succ] at hs
  exact List.cons.inj hs

theorem stop_ne_star {pat : Buffer} {i : Int}
    (hstop : is_end (pat i) = true ∨ pat i = ')') : pat i ≠ '*' := by
  intro e
  rw [e] at hstop
  rcases hstop with h | h
  · exact absurd h (by decide)
  · exact absurd h (by decide)

/-- On a stretch of the buffer that holds a pattern without parentheses and
backslashes and is followed by an end marker or by `)`, `build_regex` returns the tree
read off the list, with the index on the character that follows. -/
theorem build_regex_flat : ∀ (n : Nat) (p : List Char), p.length ≤ n →
    ∀ (pat : Buffer) (i : Int) (last : Regex) (fuel : Nat),
      (∀ c ∈ p, flat_char c) → slice pat i p.length = p →
      (is_end (pat (i + (p.length : Int))) = true ∨ pat (i + (p.length : Int)) = ')') →
      p.length + 1 ≤ fuel →
      build_regex fuel last pat i false = some (parse_flat last p, i + (p.length : Int)) := by
  intro n
  induction n with
  | zero =>
    intro p hp pat i last fuel _ _ hstop hf
    have : p = [] := List.length_eq_zero.1 (by omega)
    subst this
    obtain ⟨f, rfl⟩ : ∃ f, fuel = f + 1 := ⟨fuel - 1, by omega⟩
    simp only [List.length_nil, Nat.cast_zero, add_zero] at hstop ⊢
    rw [build_regex_stop f last pat i hstop]
    rfl
  | succ n ih =>
    intro p hp pat i last fuel hflat hs hstop hf
    obtain ⟨f, rfl⟩ : ∃ f, fuel = f + 1 := ⟨fuel - 1, by omega⟩
    cases p with
    | nil =>
      simp only [List.length_nil, Nat.cast_zero, add_zero] at hstop ⊢
      rw [build_regex_stop f last pat i hstop]
      rfl
    | cons c q =>
      obtain ⟨hc, hq⟩ := slice_cons hs
      have hfc := hflat c (List.mem_cons_self _ _)
      have hfq : ∀ x ∈ q, flat_char x := fun x hx => hflat x (List.mem_cons_of_mem _ hx)
      have hlen : i + ((c :: q).length : Int) = i + 1 + (q.length : Int) := by
        rw [List.length_cons]; push_cast; ring
      rw [hlen] at hstop ⊢
      simp only [List.length_cons] at hp hf
      by_cases hbar : c = '|'
      · subst hbar
        rw [build_regex_bar f last pat i hc,
          ih q (by omega) pat (i + 1) .null f hfq hq hstop (by omega)]
        obtain ⟨g, rfl⟩ : ∃ g, f = g + 1 := ⟨f - 1, by omega⟩
        simp only []
        rw [build_regex_stop g _ pat _ hstop, parse_flat_bar]
      · have hstep := build_regex_char f last pat i (by rw [hc]; exact hfc.1)
          (by rw [hc]; exact hfc.2.1) (by rw [hc]; exact hfc.2.2.1)
          (by rw [hc]; exact hbar) (by rw [hc]; exact hfc.2.2.2)
        rw [hc] at hstep
        rw [hstep]
        cases q with
        | nil =>
          simp only [List.length_nil, Nat.cast_zero, add_zero] at hstop ⊢
          obtain ⟨g, rfl⟩ : ∃ g, f = g + 1 := ⟨f - 1, by omega⟩
          rw [if_neg (stop_ne_star hstop), build_regex_stop g _ pat _ hstop,
            parse_flat_single last c hbar]
        | cons d rest =>
          obtain ⟨hd, hrest⟩ := slice_cons hq
          have hfr : ∀ x ∈ rest, flat_char x :=
            fun x hx => hfq x (List.mem_cons_of_mem _ hx)
          simp only [List.length_cons] at hp hf
          by_cases hstar : d = '*'
          · subst hstar
            have hlen2 : i + 1 + (('*' :: rest).length : Int) =
                i + 2 + (rest.length : Int) := by
              rw [List.length_cons]; push_cast; ring
            rw [hlen2] at hstop ⊢
            rw [show i + 1 + 1 = i + 2 by ring] at hrest
            rw [if_pos hd, ih rest (by omega) pat (i + 2) _ f hfr hrest hstop (by omega),
              parse_flat_star last c rest hbar]
          · have hne : ¬ pat (i + 1) = '*' := by rw [hd]; exact hstar
            rw [if_neg hne, ih (d :: rest) (by simp only [List.length_cons]; omega) pat
              (i + 1) _ f hfq hq hstop (by simp only [List.length_cons]; omega),
              parse_flat_next last c d rest hbar hstar]

theorem parse_flat_split (p2 : List Char) : ∀ (n : Nat) (p1 : List Char), p1.length ≤ n →
    (∀ c ∈ p1, c ≠ '|') → ∀ last : Regex,
      parse_flat last (p1 ++ '|' :: p2) = .alt (parse_flat last p1) (parse_flat .null p2) := by
  intro n
  induction n with
  | zero =>
    intro p1 hp _ last
    have : p1 = [] := List.length_eq_zero.1 (by omega)
    subst this
    rw [List.nil_append, parse_flat_bar]
    rfl
  | succ n ih =>
    intro p1 hp hno last
    cases p1 with
    | nil =>
      rw [List.nil_append, parse_flat_bar]
      rfl
    | cons c q =>
      have hc : c ≠ '|' := hno c (List.mem_cons_self _ _)
      have hq : ∀ x ∈ q, x ≠ '|' := fun x hx => hno x (List.mem_cons_of_mem _ hx)
      simp only [List.length_cons] at hp
      cases q with
      | nil =>
        have hb : ('|' : Char) ≠ '*' := by decide
        rw [List.cons_append, List.nil_append, parse_flat_next last c '|' p2 hc hb,
          parse_flat_bar, parse_flat_single last c hc]
      | cons d rest =>
        simp only [List.length_cons] at hp
        by_cases hstar : d = '*'
        · subst hstar
          rw [List.cons_append, List.cons_append, parse_flat_star _ c _ hc,
            parse_flat_star _ c _ hc]
          exact ih rest (by omega) (fun x hx => hq x (List.mem_cons_of_mem _ hx)) _
        · rw [List.cons_append, List.cons_append, parse_flat_next _ c d _ hc hstar,
            parse_flat_next _ c d _ hc hstar, ← List.cons_append]
          exact ih (d :: rest) (by simp only [List.length_cons]; omega) hq _

theorem plain_flat {c : Char} (hc : plain_char c) : flat_char c :=
  ⟨hc.1, hc.2.2.1, hc.2.2.2.1, hc.2.2.2.2.2.2⟩

theorem atom_of_plain {c : Char} (hc : plain_char c) : atom_of c = .chr c := by
  simp [atom_of, hc.2.1]

theorem concat_onto_cnc {last : Regex} (out : Regex) (h : last ≠ .null) :
    concat_onto last out = .cnc last out := by
  cases last <;> simp_all [concat_onto]

theorem concat_onto_null (out : Regex) : concat_onto .null out = out := rfl

theorem parse_flat_plain : ∀ (l : List Char) (last : Regex), last ≠ .null →
    (∀ c ∈ l, plain_char c) →
    parse_flat last l = (l.map Regex.chr).foldl Regex.cnc last := by
  intro l
  induction l with
  | nil => intro last _ _; rfl
  | cons c q ih =>
    intro last hl hp
    have hc := hp c (List.mem_cons_self _ _)
    have hq : ∀ x ∈ q, plain_char x := fun x hx => hp x (List.mem_cons_of_mem _ hx)
    cases q with
    | nil =>
      rw [parse_flat_single last c hc.2.2.2.2.1, atom_of_plain hc, concat_onto_cnc _ hl]
      rfl
    | cons d rest =>
      have hd := hq d (List.mem_cons_self _ _)
      rw [parse_flat_next last c d rest hc.2.2.2.2.1 hd.2.2.2.2.2.1, atom_of_plain hc,
        concat_onto_cnc _ hl, ih (.cnc last (.chr c)) (by simp) hq]
      rfl

theorem parse_flat_plain_null (l : List Char) (hp : ∀ c ∈ l, plain_char c) :
    parse_flat .null l = left_nested (l.map Regex.chr) := by
  cases l with
  | nil => rfl
  | cons c q =>
    have hc := hp c (List.mem_cons_self _ _)
    have hq : ∀ x ∈ q, plain_char x := fun x hx => hp x (List.mem_cons_of_mem _ hx)
    cases q with
    | nil =>
      rw [parse_flat_single .null c hc.2.2.2.2.1, atom_of_plain hc]
      rfl
    | cons d rest =>
      have hd := hq d (List.mem_cons_self _ _)
      rw [parse_flat_next .null c d rest hc.2.2.2.2.1 hd.2.2.2.2.2.1, atom_of_plain hc,
        concat_onto_null, parse_flat_plain (d :: rest) (.chr c) (by simp) hq]
      rfl

/-- The tree of a whole pattern without parentheses and backslashes that is followed by
an end marker. -/
theorem compile_flat (p : List Char) (hp : ∀ c ∈ p, flat_char c) (pattern : Buffer)
    (hs : slice pattern 0 p.length = p) (he : is_end (pattern (p.length : Int)) = true)
    (fuel : Nat) (hf : p.length + 1 ≤ fuel) :
    compile fuel pattern = some (parse_flat .null p) := by
  have := build_regex_flat p.length p (le_refl _) pattern 0 .null fuel hp hs
    (Or.inl (by rwa [zero_add])) hf
  simp [compile, this]

/-! ## Patterns that are sequences of terms -/

theorem foldl_cnc_ne_null : ∀ (l : List Regex) (x : Regex), x ≠ .null →
    l.foldl Regex.cnc x ≠ .null := by
  intro l
  induction l with
  | nil => intro x hx; exact hx
  | cons y l ih => intro x _; exact ih (.cnc x y) (by simp)

theorem atom_tree_ne_null {a : Atom} (ha : atom_ok a) : atom_tree a ≠ .null := by
  cases a with
  | lit c => simp [atom_tree]
  | group cs =>
    cases cs with
    | nil => exact absurd rfl ha.1
    | cons c q => exact foldl_cnc_ne_null _ _ (by simp)

theorem term_tree_ne_null {t : Atom × Bool} (ha : atom_ok t.1) : term_tree t ≠ .null := by
  unfold term_tree
  split
  · simp
  · exact atom_tree_ne_null ha

theorem foldl_concat_onto (f : Atom × Bool → Regex) :
    ∀ (ts : List (Atom × Bool)) (x : Regex), x ≠ .null →
      ts.foldl (fun acc t => concat_onto acc (f t)) x = (ts.map f).foldl Regex.cnc x := by
  intro ts
  induction ts with
  | nil => intro x _; rfl
  | cons t ts ih =>
    intro x hx
    rw [List.foldl_cons, concat_onto_cnc _ hx, ih _ (by simp)]
    rfl

theorem foldl_terms_null (ts : List (Atom × Bool)) (hok : ∀ t ∈ ts, atom_ok t.1) :
    ts.foldl (fun acc t => concat_onto acc (term_tree t)) .null =
      left_nested (ts.map term_tree) := by
  cases ts with
  | nil => rfl
  | cons t ts =>
    rw [List.foldl_cons, concat_onto_null,
      foldl_concat_onto term_tree ts _ (term_tree_ne_null (hok t (List.mem_cons_self _ _)))]
    rfl

theorem split_text {pat : Buffer} {i : Int} {A T : List Char}
    (hs : slice pat i (A ++ T).length = A ++ T)
    (he : is_end (pat (i + ((A ++ T).length : Int))) = true) :
    slice pat i A.length = A ∧ slice pat (i + (A.length : Int)) T.length = T ∧
      is_end (pat (i + (A.length : Int) + (T.length : Int))) = true := by
  obtain ⟨_, h1, h2⟩ := slice_split hs
  refine ⟨h1.symm, h2.symm, ?_⟩
  rw [List.length_append] at he
  push_cast at he
  rwa [← add_assoc] at he

theorem pattern_text_cons (t : Atom × Bool) (ts : List (Atom × Bool)) :
    pattern_text (t :: ts) = term_text t ++ pattern_text ts := by
  simp [pattern_text]

theorem text_head_ne_star (ts : List (Atom × Bool)) (hok : ∀ t ∈ ts, atom_ok t.1)
    (pat : Buffer) (j : Int)
    (hs : slice pat j (pattern_text ts).length = pattern_text ts)
    (he : is_end (pat (j + ((pattern_text ts).length : Int))) = true) : pat j ≠ '*' := by
  cases ts with
  | nil =>
    simp only [pattern_text, List.map_nil, List.flatten_nil, List.length_nil,
      Nat.cast_zero, add_zero] at he
    exact stop_ne_star (Or.inl he)
  | cons t ts =>
    obtain ⟨a, st⟩ := t
    have ha : atom_ok a := hok (a, st) (List.mem_cons_self _ _)
    rw [pattern_text_cons] at hs
    cases a with
    | lit c =>
      have htext : term_text (Atom.lit c, st) ++ pattern_text ts =
          c :: ((if st then ['*'] else []) ++ pattern_text ts) := by
        simp [term_text, atom_text]
      rw [htext] at hs
      rw [(slice_cons hs).1]
      exact ha.2.2.2.2.2.1
    | group cs =>
      have htext : term_text (Atom.group cs, st) ++ pattern_text ts =
          '(' :: (cs ++ [')'] ++ (if st then ['*'] else []) ++ pattern_text ts) := by
        simp [term_text, atom_text]
      rw [htext] at hs
      rw [(slice_cons hs).1]
      decide

/-- On a stretch of the buffer that holds a sequence of terms followed by an end
marker, `build_regex` adds the trees of the terms, in their order, to the expression
accumulated so far. -/
theorem build_regex_terms (pat : Buffer) : ∀ (ts : List (Atom × Bool)) (i : Int)
    (last : Regex) (fuel : Nat), (∀ t ∈ ts, atom_ok t.1) →
    slice pat i (pattern_text ts).length = pattern_text ts →
    is_end (pat (i + ((pattern_text ts).length : Int))) = true →
    (pattern_text ts).length + 1 ≤ fuel →
    build_regex fuel last pat i false =
      some (ts.foldl (fun acc t => concat_onto acc (term_tree t)) last,
        i + ((pattern_text ts).length : Int)) := by
  intro ts
  induction ts with
  | nil =>
    intro i last fuel _ _ he hf
    obtain ⟨f, rfl⟩ : ∃ f, fuel = f + 1 := ⟨fuel - 1, by omega⟩
    simp only [pattern_text, List.map_nil, List.flatten_nil, List.length_nil,
      Nat.cast_zero, add_zero] at he ⊢
    rw [build_regex_stop f last pat i (Or.inl he)]
    rfl
  | cons t ts ih =>
    intro i last fuel hok hs he hf
    obtain ⟨f, rfl⟩ : ∃ f, fuel = f + 1 := ⟨fuel - 1, by omega⟩
    obtain ⟨a, st⟩ := t
    have ha : atom_ok a := hok (a, st) (List.mem_cons_self _ _)
    have hok2 : ∀ t ∈ ts, atom_ok t.1 := fun t ht => hok t (List.mem_cons_of_mem _ ht)
    rw [pattern_text_cons] at hs he hf ⊢
    obtain ⟨hA, hT, hE⟩ := split_text hs he
    have hnext := text_head_ne_star ts hok2 pat _ hT hE
    have hlenT : (term_text (a, st) ++ pattern_text ts).length =
        (term_text (a, st)).length + (pattern_text ts).length := List.length_append _ _
    have hfin : i + ((term_text (a, st) ++ pattern_text ts).length : Int) =
        i + ((term_text (a, st)).length : Int) + ((pattern_text ts).length : Int) := by
      rw [hlenT]; push_cast; ring
    rw [hfin, List.foldl_cons]
    have hApos : 1 ≤ (term_text (a, st)).length := by
      cases a <;> simp [term_text, atom_text]
    have hrest := ih (i + ((term_text (a, st)).length : Int))
      (concat_onto last (term_tree (a, st))) f hok2 hT hE (by omega)
    cases a with
    | lit c =>
      have hpl : plain_char c := ha
      cases st with
      | false =>
        have hlen : (term_text (Atom.lit c, false)).length = 1 := rfl
        have hA2 : slice pat i 1 = [c] := hA
        rw [slice_one] at hA2
        have hci : pat i = c := List.head_eq_of_cons_eq hA2
        rw [hlen] at hnext hrest ⊢
        simp only [Nat.cast_one] at hnext hrest ⊢
        have hstep := build_regex_char f last pat i (by rw [hci]; exact hpl.1)
          (by rw [hci]; exact hpl.2.2.1) (by rw [hci]; exact hpl.2.2.2.1)
          (by rw [hci]; exact hpl.2.2.2.2.1) (by rw [hci]; exact hpl.2.2.2.2.2.2)
        rw [hstep, if_neg hnext, hci, atom_of_plain hpl]
        exact hrest
      | true =>
        have hlen : (term_text (Atom.lit c, true)).length = 2 := rfl
        have hA2 : slice pat i (1 + 1) = [c, '*'] := hA
        rw [slice_succ, slice_one] at hA2
        have hci : pat i = c := List.head_eq_of_cons_eq hA2
        have hstar : pat (i + 1) = '*' := List.head_eq_of_cons_eq (List.tail_eq_of_cons_eq hA2)
        rw [hlen] at hrest ⊢
        simp only [Nat.cast_ofNat] at hrest ⊢
        have hstep := build_regex_char f last pat i (by rw [hci]; exact hpl.1)
          (by rw [hci]; exact hpl.2.2.1) (by rw [hci]; exact hpl.2.2.2.1)
          (by rw [hci]; exact hpl.2.2.2.2.1) (by rw [hci]; exact hpl.2.2.2.2.2.2)
        rw [hstep, if_pos hstar, hci, atom_of_plain hpl]
        exact hrest
    | group cs =>
      have hcs : ∀ c ∈ cs, plain_char c := ha.2
      have hA1 : slice pat i ('(' :: (cs ++ (')' :: (if st then ['*'] else [])))).length =
          '(' :: (cs ++ (')' :: (if st then ['*'] else []))) := by
        have : term_text (Atom.group cs, st) =
            '(' :: (cs ++ (')' :: (if st then ['*'] else []))) := by
          simp [term_text, atom_text]
        rw [← this]; exact hA
      obtain ⟨hopen, hin⟩ := slice_cons hA1
      obtain ⟨_, hcs1, hcs2⟩ := slice_split hin
      obtain ⟨hclose, htail⟩ := slice_cons hcs2.symm
      have hinner := build_regex_flat cs.length cs (le_refl _) pat (i + 1) .null f
        (fun c hc => plain_flat (hcs c hc)) hcs1.symm (Or.inr hclose)
        (by
          have : cs.length + 2 ≤ (term_text (Atom.group cs, st)).length := by
            simp only [term_text, atom_text, List.length_append, List.length_cons,
              List.length_nil]
            omega
          omega)
      rw [parse_flat_plain_null cs hcs] at hinner
      rw [build_regex_group f last pat i hopen, hinner]
      simp only []
      cases st with
      | false =>
        have hlen : ((term_text (Atom.group cs, false)).length : Int) =
            (cs.length : Int) + 2 := by
          simp [term_text, atom_text]
          ring
        rw [hlen] at hnext hrest ⊢
        have hidx : i + 1 + (cs.length : Int) + 1 = i + ((cs.length : Int) + 2) := by ring
        rw [hidx, if_neg hnext]
        exact hrest
      | true =>
        have hlen : ((term_text (Atom.group cs, true)).length : Int) =
            (cs.length : Int) + 3 := by
          simp [term_text, atom_text]
          ring
        rw [hlen] at hrest ⊢
        have hstar : pat (i + 1 + (cs.length : Int) + 1) = '*' := by
          have h1 : slice pat (i + 1 + (cs.length : Int) + 1) (1 : Nat) = ['*'] := htail
          rw [slice_one] at h1
          exact List.head_eq_of_cons_eq h1
        have hidx : i + 1 + (cs.length : Int) + 2 = i + ((cs.length : Int) + 3) := by ring
        rw [if_pos hstar, hidx]
        exact hrest

/-! ## Claims about the shape of the parsed tree -/

/-- C17 (alternation has the lowest precedence, absent operands are the NULL node).
For strings `p1` and `p2` of characters that are no end markers, parentheses or
backslashes, `p1` without `|`: when three buffers hold `p1`, `p2` and `p1|p2`, each
followed by an end marker, the third compiles to the alternation of the trees of the
first two. The tree of the empty pattern is the NULL node, so an absent operand is
NULL; `ab|cd`, `a|b|c`, `|b` and `a|` compile as the claim says. -/
theorem alternation_lowest_precedence (p1 p2 : List Char)
    (h1 : ∀ c ∈ p1, flat_char c ∧ c ≠ '|') (h2 : ∀ c ∈ p2, flat_char c)
    (pat1 pat2 pat : Buffer)
    (hs1 : slice pat1 0 p1.length = p1) (he1 : is_end (pat1 (p1.length : Int)) = true)
    (hs2 : slice pat2 0 p2.length = p2) (he2 : is_end (pat2 (p2.length : Int)) = true)
    (hs : slice pat 0 (p1 ++ '|' :: p2).length = p1 ++ '|' :: p2)
    (he : is_end (pat ((p1 ++ '|' :: p2).length : Int)) = true)
    (fuel : Nat) (hf : (p1 ++ '|' :: p2).length + 1 ≤ fuel) :
    (∃ r1 r2 : Regex, compile fuel pat1 = some r1 ∧ compile fuel pat2 = some r2 ∧
      compile fuel pat = some (.alt r1 r2)) ∧
    (p1 = [] → compile fuel pat1 = some .null) ∧
    (p2 = [] → compile fuel pat2 = some .null) ∧
    compile 6 (cstr "ab|cd") =
      some (.alt (.cnc (.chr 'a') (.chr 'b')) (.cnc (.chr 'c') (.chr 'd'))) ∧
    compile 6 (cstr "a|b|c") = some (.alt (.chr 'a') (.alt (.chr 'b') (.chr 'c'))) ∧
    compile 3 (cstr "|b") = some (.alt .null (.chr 'b')) ∧
    compile 3 (cstr "a|") = some (.alt (.chr 'a') .null) := by
  have hlen : (p1 ++ '|' :: p2).length = p1.length + p2.length + 1 := by
    simp only [List.length_append, List.length_cons]; omega
  have hflat : ∀ c ∈ p1 ++ '|' :: p2, flat_char c := by
    intro c hc
    rcases List.mem_append.1 hc with hc | hc
    · exact (h1 c hc).1
    · rcases List.mem_cons.1 hc with hc | hc
      · subst hc
        exact ⟨by decide, by decide, by decide, by decide⟩
      · exact h2 c hc
  have e1 := compile_flat p1 (fun c hc => (h1 c hc).1) pat1 hs1 he1 fuel (by omega)
  have e2 := compile_flat p2 h2 pat2 hs2 he2 fuel (by omega)
  have e := compile_flat _ hflat pat hs he fuel hf
  rw [parse_flat_split p2 p1.length p1 (le_refl _) (fun c hc => (h1 c hc).2)] at e
  refine ⟨⟨_, _, e1, e2, e⟩, ?_, ?_, by decide, by decide, by decide, by decide⟩
  · intro hnil
    rw [e1, hnil]
    rfl
  · intro hnil
    rw [e2, hnil]
    rfl

/-- Witness of C17: `ab` and `cd`. -/
theorem alternation_lowest_precedence_witness :
    ∃ r1 r2 : Regex, compile 6 (cstr "ab") = some r1 ∧ compile 6 (cstr "cd") = some r2 ∧
      compile 6 (cstr "ab|cd") = some (.alt r1 r2) :=
  (alternation_lowest_precedence ['a', 'b'] ['c', 'd'] (by decide) (by decide)
    (cstr "ab") (cstr "cd") (cstr "ab|cd") (by decide) (by decide) (by decide) (by decide)
    (by decide) (by decide) 6 (by decide)).1

/-- C19 (concatenation is left-associative). For plain characters `c1 ... cn`, `n ≥ 1`,
held by a buffer and followed by an end marker, the tree is the left fold of the
literals in their order: the literal of `c1` alone when `n = 1`, otherwise
`cnc (... (cnc (cnc c1 c2) c3) ...) cn`. A buffer that starts with an end marker (the
empty pattern) gives the NULL node. -/
theorem concatenation_left_assoc (c1 : Char) (rest : List Char)
    (hplain : ∀ c ∈ c1 :: rest, plain_char c) (pattern : Buffer)
    (hs : slice pattern 0 (c1 :: rest).length = c1 :: rest)
    (he : is_end (pattern ((c1 :: rest).length : Int)) = true)
    (none_ : Buffer) (hnone : is_end (none_ 0) = true)
    (fuel : Nat) (hf : (c1 :: rest).length + 1 ≤ fuel) :
    compile fuel pattern = some ((rest.map Regex.chr).foldl Regex.cnc (.chr c1)) ∧
    (rest = [] → compile fuel pattern = some (.chr c1)) ∧
    compile fuel none_ = some .null := by
  have e := compile_flat (c1 :: rest) (fun c hc => plain_flat (hplain c hc)) pattern hs he
    fuel hf
  rw [parse_flat_plain_null _ hplain] at e
  have e0 : compile fuel pattern = some ((rest.map Regex.chr).foldl Regex.cnc (.chr c1)) := e
  refine ⟨e0, ?_, ?_⟩
  · intro hnil
    rw [e0, hnil]
    rfl
  · obtain ⟨f, rfl⟩ : ∃ f, fuel = f + 1 := ⟨fuel - 1, by omega⟩
    simp [compile, build_regex_stop f .null none_ 0 (Or.inl hnone)]

/-- Witness of C19: the pattern `abc`. -/
theorem concatenation_left_assoc_witness :
    compile 4 (cstr "abc") =
      some (((['b', 'c'] : List Char).map Regex.chr).foldl Regex.cnc (.chr 'a')) ∧
    (['b', 'c'] = ([] : List Char) → compile 4 (cstr "abc") = some (.chr 'a')) ∧
    compile 4 (cstr "") = some .null :=
  concatenation_left_assoc 'a' ['b', 'c']
    (by decide)
    (cstr "abc") (by decide) (by decide) (cstr "") (by decide) 4 (by decide)

/-- C18 (the star binds to the single preceding atom). For a pattern that is a
sequence of terms, each a plain character or a parenthesised non-empty string of plain
characters, optionally followed by one `*`, held by a buffer and followed by an end
marker, the tree is the left-nested concatenation of the trees of the terms in their
order, where a starred term gives the star of its atom alone and an unstarred term
its atom. So `ab*` is `cnc a (kls b)` and `a(bc)*d` is
`cnc (cnc a (kls (cnc b c))) d`. -/
theorem star_binds_atom (ts : List (Atom × Bool)) (hok : ∀ t ∈ ts, atom_ok t.1)
    (pattern : Buffer)
    (hs : slice pattern 0 (pattern_text ts).length = pattern_text ts)
    (he : is_end (pattern ((pattern_text ts).length : Int)) = true)
    (fuel : Nat) (hf : (pattern_text ts).length + 1 ≤ fuel) :
    compile fuel pattern = some (left_nested (ts.map term_tree)) ∧
    compile 4 (cstr "ab*") = some (.cnc (.chr 'a') (.kls (.chr 'b'))) ∧
    compile 8 (cstr "a(bc)*d") =
      some (.cnc (.cnc (.chr 'a') (.kls (.cnc (.chr 'b') (.chr 'c')))) (.chr 'd')) := by
  refine ⟨?_, by decide, by decide⟩
  have := build_regex_terms pattern ts 0 .null fuel hok hs (by rwa [zero_add]) hf
  rw [foldl_terms_null ts hok] at this
  simp [compile, this]

/-- Witness of C18: the pattern `a(bc)*d` as the terms `a`, `(bc)*`, `d`. -/
theorem star_binds_atom_witness :
    compile 8 (cstr "a(bc)*d") =
      some (left_nested
        ([(Atom.lit 'a', false), (Atom.group ['b', 'c'], true), (Atom.lit 'd', false)].map
          term_tree)) :=
  (star_binds_atom
    [(Atom.lit 'a', false), (Atom.group ['b', 'c'], true), (Atom.lit 'd', false)]
    (by decide) (cstr "a(bc)*d") (by decide) (by decide) 8 (by decide)).1

/-- C20 (parsing ends at the end of the pattern), at the failing input. The three
buffers below agree up to and including their first end marker, the newline at index
2 behind the unterminated group `(a`. The first, with NUL characters behind the
newline, compiles to the literal `a`, the tree of the pattern `a`. The second holds
`b` and a newline behind the first newline and compiles to the concatenation of `a`
and `b`; the third holds `*` there and compiles to the star of `a`: `build_regex` has
read the characters at index 3 and beyond. -/
theorem unterminated_group_reads_on :
    (clist ['(', 'a', '\n'] 0 = clist ['(', 'a', '\n', 'b', '\n'] 0 ∧
      clist ['(', 'a', '\n'] 1 = clist ['(', 'a', '\n', 'b', '\n'] 1 ∧
      clist ['(', 'a', '\n'] 2 = clist ['(', 'a', '\n', 'b', '\n'] 2 ∧
      is_end (clist ['(', 'a', '\n'] 0) = false ∧
      is_end (clist ['(', 'a', '\n'] 1) = false ∧
      is_end (clist ['(', 'a', '\n'] 2) = true) ∧
    compile 3 (clist ['a', '\n']) = some (.chr 'a') ∧
    compile 5 (clist ['(', 'a', '\n']) = some (.chr 'a') ∧
    compile 5 (clist ['(', 'a', '\n', 'b', '\n']) = some (.cnc (.chr 'a') (.chr 'b')) ∧
    compile 5 (clist ['(', 'a', '\n', '*', '\n']) = some (.kls (.chr 'a')) := by
  refine ⟨⟨by decide, by decide, by decide, by decide, by decide, by decide⟩,
    by decide, by decide, by decide, by decide⟩

end RegexC
